import Mathlib

/-!
Verification development for the symbolica computer-algebra core
(`src/derivative.rs`, `src/poly.rs`).

The expression representation, the normalizer, the polynomial container
(`append_monomial`), rational-polynomial arithmetic, the parser's `to_atom`
and the `Number` arithmetic live outside `src/`; they are modelled from the
specification (marked `Modelled from the spec:` below).  Everything in
`src/derivative.rs` and `src/poly.rs` is translated directly.
-/

namespace Symbolica

/-- Identifiers: the symbol table (`state.rs`, outside `src/`) interns names
into opaque ids with a stable bijection; `Modelled from the spec:` we use the
names themselves as the identifiers. -/
abbrev Ident := String

def EXP : Ident := "exp"
def LOG : Ident := "log"
def SIN : Ident := "sin"
def COS : Ident := "cos"
def DERIVATIVE : Ident := "der"

/-- `Modelled from the spec:` `Number` (representations/number.rs, outside
`src/`): a machine rational `Natural(p, q)` (i64 numerator and denominator,
invariant `q > 0`, `gcd(|p|, q) = 1`), an arbitrary-precision rational
`Large`, or a finite-field residue. -/
inductive SNumber where
  | nat (p : Int) (q : Int)
  | large (v : ℚ)
  | fin (n f : Nat)
deriving DecidableEq

def SNumber.toRat : SNumber → ℚ
  | .nat p q => (p : ℚ) / (q : ℚ)
  | .large v => v
  | .fin _ _ => 0

def SNumber.isFin : SNumber → Bool
  | .fin _ _ => true
  | _ => false

def i64max : Int := 9223372036854775807

/-- `Modelled from the spec:` the `Natural`-vs-`Large` split: a value is kept
machine-sized whenever numerator and denominator fit in an i64. -/
def ratToNum (v : ℚ) : SNumber :=
  if v.num.natAbs ≤ i64max.toNat ∧ (v.den : Int) ≤ i64max then .nat v.num (v.den : Int)
  else .large v

def zeroN : SNumber := .nat 0 1
def oneN : SNumber := .nat 1 1
def negOneN : SNumber := .nat (-1) 1

/-- `Modelled from the spec:` `Number::add` — exact rational addition,
promoted to `Large` only when the result does not fit the machine width.
A finite-field operand is outside the rational claims and is returned
unchanged. -/
def numberAdd (a b : SNumber) : SNumber :=
  match a, b with
  | .fin n f, _ => .fin n f
  | _, .fin n f => .fin n f
  | a, b => ratToNum (a.toRat + b.toRat)

/-- The expression tree (representations, outside `src/`): `Modelled from the
spec:` variants {Num, Var, Fun(id, args), Pow(base, exp), Mul(args),
Add(args)}.  The dirty flag only schedules normalization and does not change
any value computed here, so it is not represented. -/
inductive SAtom where
  | num (n : SNumber)
  | var (id : Ident)
  | fn (id : Ident) (args : List SAtom)
  | pow (base exp : SAtom)
  | mul (args : List SAtom)
  | add (args : List SAtom)

def zeroA : SAtom := .num zeroN
def oneA : SAtom := .num oneN

mutual

/-- Structural equality of expression nodes (clean-node comparison). -/
def SAtom.beq : SAtom → SAtom → Bool
  | .num a, .num b => a == b
  | .var a, .var b => a == b
  | .fn f a, .fn g b => f == g && SAtom.beqList a b
  | .pow a b, .pow c d => SAtom.beq a c && SAtom.beq b d
  | .mul a, .mul b => SAtom.beqList a b
  | .add a, .add b => SAtom.beqList a b
  | _, _ => false

def SAtom.beqList : List SAtom → List SAtom → Bool
  | [], [] => true
  | a :: as, b :: bs => SAtom.beq a b && SAtom.beqList as bs
  | _, _ => false

end

instance : BEq SAtom := ⟨SAtom.beq⟩

def cmpRat (a b : ℚ) : Ordering :=
  if a < b then .lt else if b < a then .gt else .eq

def cmpNum (a b : SNumber) : Ordering := cmpRat a.toRat b.toRat

def kindRank : SAtom → Nat
  | .num _ => 0
  | .var _ => 1
  | .fn _ _ => 2
  | .pow _ _ => 3
  | .mul _ => 4
  | .add _ => 5

mutual

/-- `Modelled from the spec:` the normalizer's private total syntactic order
used when sorting the children of canonical sums and products. -/
def SAtom.cmp : SAtom → SAtom → Ordering
  | .num a, .num b => cmpNum a b
  | .var a, .var b => compare a b
  | .fn f a, .fn g b =>
      match compare f g with
      | .eq => SAtom.cmpList a b
      | o => o
  | .pow a b, .pow c d =>
      match SAtom.cmp a c with
      | .eq => SAtom.cmp b d
      | o => o
  | .mul a, .mul b => SAtom.cmpList a b
  | .add a, .add b => SAtom.cmpList a b
  | a, b => compare (kindRank a) (kindRank b)

def SAtom.cmpList : List SAtom → List SAtom → Ordering
  | [], [] => .eq
  | [], _ :: _ => .lt
  | _ :: _, [] => .gt
  | a :: as, b :: bs =>
      match SAtom.cmp a b with
      | .eq => SAtom.cmpList as bs
      | o => o

end

def atomLe (a b : SAtom) : Bool :=
  match SAtom.cmp a b with
  | .gt => false
  | _ => true

def insertSorted (a : SAtom) : List SAtom → List SAtom
  | [] => [a]
  | b :: bs => if atomLe a b then a :: b :: bs else b :: insertSorted a bs

def sortAtoms : List SAtom → List SAtom
  | [] => []
  | a :: as => insertSorted a (sortAtoms as)

/-- Flatten one level of nested sums. -/
def flattenAdd : List SAtom → List SAtom
  | [] => []
  | .add xs :: rest => xs ++ flattenAdd rest
  | a :: rest => a :: flattenAdd rest

/-- Flatten one level of nested products. -/
def flattenMul : List SAtom → List SAtom
  | [] => []
  | .mul xs :: rest => xs ++ flattenMul rest
  | a :: rest => a :: flattenMul rest

/-- Merge a key with a rational weight into an association list kept in
first-encounter order. -/
def mergeKey (l : List (SAtom × ℚ)) (k : SAtom) (c : ℚ) : List (SAtom × ℚ) :=
  match l with
  | [] => [(k, c)]
  | (k', c') :: rest =>
      if SAtom.beq k' k then (k', c' + c) :: rest else (k', c') :: mergeKey rest k c

def mulKeyOf : List SAtom → Option SAtom
  | [] => none
  | [a] => some a
  | l => some (.mul l)

/-- Split a summand into its non-numeric key (none for a pure number) and its
numeric coefficient; a canonical product carries its coefficient last. -/
def splitTerm (t : SAtom) : Option SAtom × ℚ :=
  match t with
  | .num n => if n.isFin then (some t, 1) else (none, n.toRat)
  | .mul rs =>
      match rs.getLast? with
      | some (.num n) =>
          if n.isFin then (some t, 1) else (mulKeyOf rs.dropLast, n.toRat)
      | _ => (mulKeyOf rs, 1)
  | _ => (some t, 1)

def addStep (st : ℚ × List (SAtom × ℚ)) (t : SAtom) : ℚ × List (SAtom × ℚ) :=
  match splitTerm t with
  | (none, c) => (st.1 + c, st.2)
  | (some k, c) => (st.1, mergeKey st.2 k c)

def mulStep (st : ℚ × List (SAtom × ℚ)) (f : SAtom) : ℚ × List (SAtom × ℚ) :=
  match f with
  | .num n => if n.isFin then (st.1, mergeKey st.2 f 1) else (st.1 * n.toRat, st.2)
  | .pow b (.num n) =>
      if n.isFin then (st.1, mergeKey st.2 (SAtom.pow b (.num n)) 1)
      else (st.1, mergeKey st.2 b n.toRat)
  | _ => (st.1, mergeKey st.2 f 1)

def addCollect (l : List SAtom) : ℚ × List (SAtom × ℚ) := l.foldl addStep (0, [])

def mulCollect (l : List SAtom) : ℚ × List (SAtom × ℚ) := l.foldl mulStep (1, [])

def termOf (k : SAtom) (c : ℚ) : SAtom :=
  if c = 1 then k
  else
    match k with
    | .mul rs => .mul (rs ++ [.num (ratToNum c)])
    | _ => .mul [k, .num (ratToNum c)]

/-- Rebuild a canonical sum from merged terms and the numeric constant. -/
def addBuild (st : ℚ × List (SAtom × ℚ)) : SAtom :=
  let terms := st.2.filterMap (fun kc => if kc.2 = 0 then none else some (termOf kc.1 kc.2))
  let sorted := sortAtoms terms
  match sorted ++ (if st.1 = 0 then [] else [.num (ratToNum st.1)]) with
  | [] => .num zeroN
  | [t] => t
  | l => .add l

/-- Rebuild a canonical product from merged base-exponent pairs and the
numeric coefficient. -/
def mulBuild (st : ℚ × List (SAtom × ℚ)) : SAtom :=
  if st.1 = 0 then .num zeroN
  else
    let factors := st.2.filterMap (fun kc =>
      if kc.2 = 0 then none
      else if kc.2 = 1 then some kc.1
      else some (.pow kc.1 (.num (ratToNum kc.2))))
    let sorted := sortAtoms factors
    if st.1 = 1 then
      match sorted with
      | [] => .num oneN
      | [t] => t
      | l => .mul l
    else
      match sorted with
      | [] => .num (ratToNum st.1)
      | l => .mul (l ++ [.num (ratToNum st.1)])

/-- Canonicalize a number: machine rationals are reduced with positive
denominator, and `Large` values that fit the machine width are demoted. -/
def nCanon : SNumber → SNumber
  | .nat p q => ratToNum ((p : ℚ) / (q : ℚ))
  | .large v => ratToNum v
  | .fin n f => .fin n f

def isNumVal (e : SAtom) (v : ℚ) : Bool :=
  match e with
  | .num n => !n.isFin && n.toRat == v
  | _ => false

def powNorm (nb ne : SAtom) : SAtom :=
  if isNumVal ne 1 then nb
  else if isNumVal ne 0 then .num oneN
  else .pow nb ne

mutual

/-- `Modelled from the spec:` the normalizer (an external collaborator of
`src/`): flattens nested sums and products, merges like terms and like
factors, sorts children, evaluates the numeric part and eliminates zeros and
ones.  Which total order is used for sorting is the normalizer's private
choice. -/
def normalize : SAtom → SAtom
  | .num n => .num (nCanon n)
  | .var v => .var v
  | .fn f args => .fn f (normalizeList args)
  | .pow b e => powNorm (normalize b) (normalize e)
  | .mul args => mulBuild (mulCollect (flattenMul (normalizeList args)))
  | .add args => addBuild (addCollect (flattenAdd (normalizeList args)))

def normalizeList : List SAtom → List SAtom
  | [] => []
  | a :: as => normalize a :: normalizeList as

end

/-- The new exponent built by the `Pow` case of `AtomView::derivative`
(src/derivative.rs lines 228–250): for a `Num` exponent the value `e − 1` is
computed numerically into a single `Num` node; otherwise the symbolic dirty
sum `e + (−1)` is built. -/
def powNewExp (exp : SAtom) : SAtom :=
  match exp with
  | .num n => .num (numberAdd n negOneN)
  | e => .add [e, .num negOneN]

/-- How `derivative.rs` multiplies the function derivative with the single
argument derivative `du` (lines 110–122): if `du` is a product its factor
list is extended in place with the function derivative at the end, otherwise
a fresh two-factor product `fn_der · du` is built. -/
def mulJoin (du fnDer : SAtom) : SAtom :=
  match du with
  | .mul rs => .mul (rs ++ [fnDer])
  | _ => .mul [fnDer, du]

/-- The tail of the `Fun` case of `AtomView::derivative` (derivative.rs lines
57–174), after the positional argument derivatives `ds` have been computed:
zero check, the closed-form cases for `exp`/`log`/`sin`/`cos`, and the
general reified-derivative-tag sum.  `forigArgs` are the arguments of the
original node, `toDerive` the function being differentiated, `gargs` its
arguments, and `isDer` tells whether the original node was a `derivative`
tag. -/
def funFinish (self : SAtom) (forigArgs : List SAtom) (toDerive : SAtom)
    (gname : Ident) (gargs : List SAtom) (isDer : Bool)
    (ds : List (Bool × SAtom)) : Except String (Bool × SAtom) :=
  let argsDer := ds.enum.filterMap (fun p => if p.2.1 then some (p.1, p.2.2) else none)
  if argsDer.isEmpty then .ok (false, zeroA)
  else if gargs.length == 1 && (gname == EXP || gname == LOG || gname == SIN || gname == COS) then
    match gargs, argsDer.getLast? with
    | [u], some (_, du) =>
        let fnDer : SAtom :=
          if gname == EXP then self
          else if gname == LOG then .pow u (.num negOneN)
          else if gname == SIN then .fn COS [u]
          else .mul [.fn SIN [u], .num negOneN]
        .ok (true, normalize (mulJoin du fnDer))
    | _, _ => .error "unreachable"
  else do
    let terms ← argsDer.mapM (fun p => do
      let counts ←
        if isDer then
          (forigArgs.take gargs.length).enum.mapM (fun q =>
            match q.2 with
            | .num nn => pure (SAtom.num (numberAdd nn (.nat (if q.1 = p.1 then 1 else 0) 1)))
            | _ => throw "Derivative function must contain numbers for all but the last position")
        else
          pure ((List.range gargs.length).map (fun i =>
            SAtom.num (.nat (if i = p.1 then 1 else 0) 1)))
      pure (SAtom.mul [.fn DERIVATIVE (counts ++ [toDerive]), p.2]))
    .ok (true, normalize (.add terms))

mutual

/-- Translation of `AtomView::derivative` (src/derivative.rs lines 15–342).
The boolean is the return value (`true` iff the engine considered the
derivative nonzero) and the atom is what is written into `out`.  The `panic!`
exits of the Rust code are modelled as `Except.error`. -/
def derivative (e : SAtom) (x : Ident) : Except String (Bool × SAtom) :=
  match e with
  | .num _ => .ok (false, zeroA)
  | .var v => if v = x then .ok (true, oneA) else .ok (false, zeroA)
  | .fn fname args =>
      if fname = DERIVATIVE then
        match h : args.getLast? with
        | some (.fn gname gargs) => do
            let ds ← derivList gargs x
            funFinish (.fn fname args) args (.fn gname gargs) gname gargs true ds
        | some _ => .error "Last argument of der function must be a function"
        | none => .error "empty derivative function"
      else do
        let ds ← derivList args x
        funFinish (.fn fname args) args (.fn fname args) fname args false ds
  | .pow base exp => do
      let pe ← derivative exp x
      let pb ← derivative base x
      if !pe.1 && !pb.1 then .ok (false, zeroA)
      else
        let contrib :=
          if pe.1 then
            match pe.2 with
            | .mul rs => normalize (.mul (rs ++ [.pow base exp, .fn LOG [base]]))
            | d => normalize (.mul [.pow base exp, d, .fn LOG [base]])
          else zeroA
        if pe.1 && !pb.1 then .ok (true, contrib)
        else
          let mulh := SAtom.mul [pb.2, exp, .pow base (powNewExp exp)]
          if pe.1 then .ok (true, normalize (.add [mulh, contrib]))
          else .ok (true, normalize mulh)
  | .mul args => do
      let ds ← derivList args x
      let terms := (args.zip ds).filterMap (fun p =>
        if p.2.1 then
          some (match p.2.2 with
            | .mul rs => SAtom.mul (rs ++ args.filter (fun a => !SAtom.beq a p.1))
            | d => SAtom.mul (d :: args.filter (fun a => !SAtom.beq a p.1)))
        else none)
      if terms.isEmpty then .ok (false, zeroA)
      else .ok (true, normalize (.add terms))
  | .add args => do
      let ds ← derivList args x
      let terms := (ds.filter (·.1)).map (·.2)
      if terms.isEmpty then .ok (false, zeroA)
      else .ok (true, normalize (.add terms))
termination_by sizeOf e
decreasing_by
all_goals simp_wf
all_goals try omega
rename_i idf argsf hdf
have hm : SAtom.fn gname gargs ∈ argsf := by
  obtain ⟨hne, he⟩ := List.mem_getLast?_eq_getLast (by exact h)
  rw [he]; exact List.getLast_mem hne
have h1 := List.sizeOf_lt_of_mem hm
simp at h1
omega

/-- Left-to-right positional derivatives of an argument list. -/
def derivList (l : List SAtom) (x : Ident) : Except String (List (Bool × SAtom)) :=
  match l with
  | [] => .ok []
  | a :: as => do
      let d ← derivative a x
      let ds ← derivList as x
      .ok (d :: ds)
termination_by sizeOf l
decreasing_by
all_goals simp_wf
all_goals omega

end

instance decEqExcept {ε α : Type} [DecidableEq ε] [DecidableEq α] :
    DecidableEq (Except ε α)
  | .error e, .error f =>
      if h : e = f then .isTrue (by rw [h]) else .isFalse (by simp [h])
  | .error _, .ok _ => .isFalse (by simp)
  | .ok _, .error _ => .isFalse (by simp)
  | .ok a, .ok b =>
      if h : a = b then .isTrue (by rw [h]) else .isFalse (by simp [h])

/-- Outcome channel of the conversion engine: a returned `Result::Err`
(`err`) or a Rust `panic!`/`unreachable!` (`panicked`). -/
inductive PErr where
  | err (m : String)
  | panicked (m : String)
deriving DecidableEq

/-- The two supported exponent widths (`impl Exponent for u8` / `for u32`,
src/poly.rs lines 42–89). -/
inductive EW where
  | w8
  | w32
deriving DecidableEq

def u32max : Int := 4294967295

/-- `Exponent::from_u32` — total at width `u32`; at width `u8` it panics for
any value not strictly below `u8::MAX` (src/poly.rs lines 74–80). -/
def fromU32 (w : EW) (n : Nat) : Except PErr Nat :=
  match w with
  | .w8 => if n < 255 then .ok n else .error (.panicked "Exponent too large for u8")
  | .w32 => .ok n

/-- The unchecked `+=` on exponents used by the parse pass, at release-build
(wrapping) semantics of the fixed-width integer type. -/
def wrapAdd (w : EW) (a b : Nat) : Nat :=
  match w with
  | .w8 => (a + b) % 256
  | .w32 => (a + b) % 4294967296

/-- `Modelled from the spec:` `MultivariatePolynomial` (poly/polynomial.rs,
outside `src/`): a coefficient field (fixed here to ℚ), a variable map, and a
sparse term list kept in a fixed monomial order with no zero coefficients and
no duplicate exponent vectors. -/
structure MPoly where
  varMap : List Ident
  terms : List (ℚ × List Nat)
deriving DecidableEq

def MPoly.newP (vars : List Ident) : MPoly := ⟨vars, []⟩

/-- `MultivariatePolynomial::one`: the constant polynomial 1. -/
def MPoly.oneP : MPoly := ⟨[], [(1, [])]⟩

/-- The monomial order (a private choice of the polynomial module):
lexicographic comparison of exponent vectors. -/
def cmpExp : List Nat → List Nat → Ordering
  | [], [] => .eq
  | [], _ :: _ => .lt
  | _ :: _, [] => .gt
  | a :: as, b :: bs =>
      match compare a b with
      | .eq => cmpExp as bs
      | o => o

def insertMonomial (c : ℚ) (es : List Nat) : List (ℚ × List Nat) → List (ℚ × List Nat)
  | [] => [(c, es)]
  | (c', es') :: rest =>
      match cmpExp es es' with
      | .lt => (c, es) :: (c', es') :: rest
      | .eq => if c + c' = 0 then rest else (c + c', es') :: rest
      | .gt => (c', es') :: insertMonomial c es rest

/-- `Modelled from the spec:` `append_monomial` keeps the term list in the
monomial order, merges a monomial with an existing equal exponent vector,
and never stores a zero coefficient. -/
def MPoly.append_monomial (p : MPoly) (c : ℚ) (es : List Nat) : MPoly :=
  if c = 0 then p else ⟨p.varMap, insertMonomial c es p.terms⟩

def pushVar (allow : Bool) (vars : List Ident) (v : Ident) : Except PErr (List Ident) :=
  if v ∈ vars then .ok vars
  else if allow then .ok (vars ++ [v])
  else .error (.err "Expression contains variable that is not in variable map")

/-- Translation of the nested `check_factor` of `AtomView::to_polynomial`
(src/poly.rs lines 101–169). -/
def check_factor (allow : Bool) (vars : List Ident) (f : SAtom) : Except PErr (List Ident) :=
  match f with
  | .num n =>
      match n with
      | .fin _ _ => .error (.err "Finite field not supported in conversion routine")
      | _ => .ok vars
  | .var v => pushVar allow vars v
  | .fn _ _ => .error (.err "function not supported in polynomial")
  | .pow b e => do
      let vars' ←
        match b with
        | .var v => pushVar allow vars v
        | _ => Except.error (.err "base must be a variable")
      match e with
      | .num n =>
          match n with
          | .fin _ _ => .error (.err "Finite field not supported in conversion routine")
          | .nat p q =>
              if q = 1 ∧ 0 ≤ p ∧ p ≤ u32max then .ok vars'
              else .error (.err "Exponent negative or a fraction")
          | .large r =>
              if (r.den : Int) = 1 ∧ 0 ≤ r.num ∧ r.num ≤ u32max then .ok vars'
              else .error (.err "Exponent too large or negative or a fraction")
      | _ => .error (.err "base must be a variable")
  | .add _ => .error (.err "Expression may not contain subexpressions")
  | .mul _ => .error (.panicked "Mul inside mul found")

/-- Translation of the nested `check_term` (src/poly.rs lines 171–185). -/
def check_term (allow : Bool) (vars : List Ident) (t : SAtom) : Except PErr (List Ident) :=
  match t with
  | .mul fs => fs.foldlM (check_factor allow) vars
  | _ => check_factor allow vars t

/-- The validation pass of `AtomView::to_polynomial` (src/poly.rs lines
187–202): collect variables and check the structure, before any polynomial
is built. -/
def checkPhase (e : SAtom) (varMap : Option (List Ident)) : Except PErr (List Ident) :=
  match e with
  | .add ts => ts.foldlM (check_term varMap.isNone) (varMap.getD [])
  | _ => check_term varMap.isNone (varMap.getD []) e

/-- `ConvertToRing::from_number` at the rational field; a finite-field
residue cannot be converted (unreachable after validation). -/
def numToRatM : SNumber → Except PErr ℚ
  | .fin _ _ => .error (.panicked "finite field number in rational conversion")
  | n => .ok n.toRat

/-- Translation of the nested `parse_factor` (src/poly.rs lines 204–245).
The `unwrap`/`unreachable!` exits are modelled as `panicked`. -/
def parse_factor (w : EW) (vars : List Ident) (st : ℚ × List Nat) (f : SAtom) :
    Except PErr (ℚ × List Nat) :=
  match f with
  | .num n => do
      let c ← numToRatM n
      .ok (st.1 * c, st.2)
  | .var v =>
      match vars.indexOf? v with
      | some i => .ok (st.1, st.2.modify (fun old => wrapAdd w old 1) i)
      | none => .error (.panicked "variable missing from map")
  | .pow b e => do
      let i ←
        match b with
        | .var v =>
            match vars.indexOf? v with
            | some i => Except.ok i
            | none => Except.error (.panicked "variable missing from map")
        | _ => Except.error (.panicked "pow base not a variable")
      match e with
      | .num (.nat p _) => do
          let k ← fromU32 w (p % 4294967296).toNat
          .ok (st.1, st.2.modify (fun old => wrapAdd w old k) i)
      | .num (.large r) =>
          if 0 ≤ r.num ∧ r.num ≤ u32max then do
            let k ← fromU32 w r.num.toNat
            .ok (st.1, st.2.modify (fun old => wrapAdd w old k) i)
          else .error (.panicked "unwrap on exponent conversion")
      | _ => .error (.panicked "pow exponent not a number")
  | _ => .error (.panicked "Unsupported expression")

/-- Translation of the nested `parse_term` (src/poly.rs lines 247–266). -/
def parse_term (w : EW) (vars : List Ident) (poly : MPoly) (t : SAtom) :
    Except PErr MPoly := do
  let init : ℚ × List Nat := (1, List.replicate vars.length 0)
  let st ←
    match t with
    | .mul fs => fs.foldlM (parse_factor w vars) init
    | _ => parse_factor w vars init t
  .ok (poly.append_monomial st.1 st.2)

/-- The construction pass of `AtomView::to_polynomial` (src/poly.rs lines
268–284), run only after validation succeeded. -/
def buildPhase (w : EW) (e : SAtom) (vars : List Ident) : Except PErr MPoly :=
  match e with
  | .add ts => ts.foldlM (parse_term w vars) (MPoly.newP vars)
  | _ => parse_term w vars (MPoly.newP vars) e

/-- Translation of `AtomView::to_polynomial` (src/poly.rs lines 96–285) at
the rational coefficient field, parametrized by the exponent width. -/
def to_polynomial (w : EW) (e : SAtom) (varMap : Option (List Ident)) :
    Except PErr MPoly := do
  let vars ← checkPhase e varMap
  buildPhase w e vars

/-- The factor `OwnedAtom::from_polynomial` emits for one
(variable, exponent) pair: nothing for exponent 0, the bare variable for
exponent 1, and a power with a machine-integer exponent otherwise
(src/poly.rs lines 398–421). -/
def monFactor (vk : Ident × Nat) : Option SAtom :=
  if vk.2 = 0 then none
  else if vk.2 = 1 then some (.var vk.1)
  else some (.pow (.var vk.1) (.num (.nat (vk.2 : Int) 1)))

/-- Translation of `OwnedAtom::from_polynomial` (src/poly.rs lines
384–434): an `Add` of one `Mul` per monomial, each variable with positive
exponent contributing either the bare variable or a power with a machine
integer exponent, and the coefficient placed last. -/
def from_polynomial (p : MPoly) : SAtom :=
  .add (p.terms.map (fun t =>
    .mul ((p.varMap.zip t.2).filterMap monFactor ++ [.num (ratToNum t.1)])))

def mergeVm (a b : List Ident) : List Ident := a ++ b.filter (fun v => !(v ∈ a : Bool))

def lookupExp (vm : List Ident) (es : List Nat) (v : Ident) : Nat :=
  (((vm.zip es).find? (fun p => p.1 == v)).map (fun p => p.2)).getD 0

/-- Re-express a polynomial over an extended variable map, inserting zero
exponents for absent indeterminates. -/
def MPoly.remap (p : MPoly) (newVm : List Ident) : MPoly :=
  ⟨newVm, p.terms.map (fun t => (t.1, newVm.map (lookupExp p.varMap t.2)))⟩

/-- `Modelled from the spec:` polynomial addition (poly/polynomial.rs,
outside `src/`): merge over a common variable map through `append_monomial`. -/
def MPoly.addP (p q : MPoly) : MPoly :=
  let m := mergeVm p.varMap q.varMap
  (MPoly.remap q m).terms.foldl (fun acc t => acc.append_monomial t.1 t.2) (MPoly.remap p m)

/-- `Modelled from the spec:` polynomial multiplication (poly/polynomial.rs,
outside `src/`): cross products of monomials with exponent-vector addition. -/
def MPoly.mulP (p q : MPoly) : MPoly :=
  let m := mergeVm p.varMap q.varMap
  let p' := MPoly.remap p m
  let q' := MPoly.remap q m
  p'.terms.foldl (fun acc t =>
    q'.terms.foldl (fun acc2 t2 =>
      acc2.append_monomial (t.1 * t2.1) (List.zipWith (· + ·) t.2 t2.2)) acc)
    (MPoly.newP m)

/-- `Modelled from the spec:` `RationalPolynomial` (rings, outside `src/`): a
numerator/denominator pair.  The coprime reduction and denominator sign
normalization performed by the external GCD algorithm are kept abstract (the
pair is stored as built); the claims proved about `to_rational_polynomial`
concern its dispatch and error behaviour, which are independent of that
reduction, and both conversion paths use these same operations. -/
structure RPoly where
  num : MPoly
  den : MPoly
deriving DecidableEq

/-- `RationalPolynomial::from_num_den`. -/
def RPoly.from_num_den (n d : MPoly) : RPoly := ⟨n, d⟩

/-- `RationalPolynomialField::one`. -/
def RPoly.oneR : RPoly := ⟨MPoly.oneP, MPoly.oneP⟩

/-- `RationalPolynomial::new(out_field, var_map)`: the zero rational
polynomial over the given variable map. -/
def RPoly.newR (vm : Option (List Ident)) : RPoly := ⟨MPoly.newP (vm.getD []), MPoly.oneP⟩

/-- `RationalPolynomial::inv`: reciprocal. -/
def RPoly.inv (r : RPoly) : RPoly := ⟨r.den, r.num⟩

def RPoly.mulR (a b : RPoly) : RPoly := ⟨a.num.mulP b.num, a.den.mulP b.den⟩

def RPoly.addR (a b : RPoly) : RPoly :=
  ⟨(a.num.mulP b.den).addP (b.num.mulP a.den), a.den.mulP b.den⟩

/-- `RationalPolynomial::pow(u64)` (computed by repeated squaring in the
source; modelled as the iterated product, which builds the same value). -/
def RPoly.pow (r : RPoly) (k : Nat) : RPoly :=
  (List.range k).foldl (fun acc _ => acc.mulR r) RPoly.oneR

/-- `unify_var_map`: expand both operands over the union of their variable
maps, inserting absent indeterminates with zero exponents. -/
def RPoly.unify_var_map (a b : RPoly) : RPoly × RPoly :=
  let m := mergeVm (mergeVm (mergeVm a.num.varMap a.den.varMap) b.num.varMap) b.den.varMap
  (⟨a.num.remap m, a.den.remap m⟩, ⟨b.num.remap m, b.den.remap m⟩)

def toTermsOf : SAtom → List SAtom
  | .add xs => xs
  | a => [a]

def mkMulOf : List SAtom → SAtom
  | [f] => f
  | fs => .mul fs

/-- Distribute a product over the sums among its factors. -/
def distributeMul (args : List SAtom) : SAtom :=
  let cross := args.foldl
    (fun acc a => acc.flatMap (fun pre => (toTermsOf a).map (fun t => pre ++ [t]))) [[]]
  match cross with
  | [fs] => mkMulOf fs
  | l => .add (l.map mkMulOf)

mutual

/-- `Modelled from the spec:` the core of the normalizer's expansion
primitive (an external collaborator of `src/`): products are distributed
over sums and a power of a sum by a machine integer `k ≥ 2` is multiplied
out; a power of a non-sum (such as `x^3` or `x^-3`) is left alone. -/
def expandCore : SAtom → SAtom
  | .num n => .num n
  | .var v => .var v
  | .fn f args => .fn f (expandList args)
  | .pow b e =>
      let b' := expandCore b
      let e' := expandCore e
      match e' with
      | .num (.nat k 1) =>
          if 2 ≤ k then
            match b' with
            | .add _ => distributeMul (List.replicate k.toNat b')
            | _ => .pow b' e'
          else .pow b' e'
      | _ => .pow b' e'
  | .mul args => distributeMul (expandList args)
  | .add args => .add (expandList args)

def expandList : List SAtom → List SAtom
  | [] => []
  | a :: as => expandCore a :: expandList as

end

/-- `Modelled from the spec:` `AtomView::expand` — writes the expanded,
normalized form and reports whether the output differs structurally from the
input after normalization (§9: `expand` returns `true` iff the output tree
differs structurally from the input after normalization). -/
def expandAtom (e : SAtom) : Bool × SAtom :=
  let e' := normalize (expandCore e)
  (!(SAtom.beq e' e), e')

/-- Translation of `AtomView::to_rational_polynomial` (src/poly.rs lines
288–381) at the rational coefficient field and the `u32` exponent width.
The source recurses without a structural bound (through `expand`); a fuel
parameter makes the definition total, decreasing by one at every recursive
call, with exhaustion modelled as a distinguished panic. -/
def to_rational_polynomial : Nat → SAtom → Option (List Ident) → Except PErr RPoly
  | 0, _, _ => .error (.panicked "recursion fuel exhausted")
  | fuel + 1, e, vm =>
    match to_polynomial .w32 e vm with
    | .ok num => .ok (RPoly.from_num_den num MPoly.oneP)
    | .error (.panicked m) => .error (.panicked m)
    | .error (.err _) =>
      match e with
      | .num _ | .var _ => do
          let num ← to_polynomial .w32 e vm
          .ok (RPoly.from_num_den num MPoly.oneP)
      | .pow b ex =>
          match ex with
          | .num (.nat nn nd) =>
              if nd ≠ 1 then .error (.err "Exponent cannot be a faction")
              else if nn ≠ -1 ∧ nn ≠ 1 then
                let ch := expandAtom (.pow b ex)
                if !ch.1 then do
                  let r ← to_rational_polynomial fuel b vm
                  if nn < 0 then .ok ((RPoly.inv r).pow nn.natAbs)
                  else .ok (r.pow nn.natAbs)
                else to_rational_polynomial fuel ch.2 vm
              else if nn < 0 then do
                let r ← to_rational_polynomial fuel b vm
                .ok (RPoly.inv r)
              else to_rational_polynomial fuel b vm
          | .num _ => .error (.err "Exponent needs to be an integer")
          | _ => .error (.err "Power needs to be a number")
      | .fn _ _ => .error (.err "Functions not allowed")
      | .mul args =>
          args.foldlM (fun r a => do
            let argR ← to_rational_polynomial fuel a vm
            let u := RPoly.unify_var_map r argR
            .ok (u.1.mulR u.2)) RPoly.oneR
      | .add args =>
          args.foldlM (fun r a => do
            let argR ← to_rational_polynomial fuel a vm
            let u := RPoly.unify_var_map r argR
            .ok (u.1.addR u.2)) (RPoly.newR vm)

/-- Parser tokens (parser.rs, outside `src/`): `Modelled from the spec:` the
shapes consumed by the token-level conversions — numeric literal, identifier
and the binary operators used in src/poly.rs.  A numeric literal stands for
its parsed integer value; `parse::<i64>` succeeds exactly when the value
fits an i64, and otherwise the arbitrary-precision fallback is used. -/
inductive BinaryOperator where
  | mul | add | pow | neg | inv
deriving DecidableEq

inductive Token where
  | number (n : Int)
  | id (s : String)
  | binaryOp (op : BinaryOperator) (args : List Token)

def fitsI64 (n : Int) : Bool := -9223372036854775808 ≤ n && n ≤ i64max

def intToNum (n : Int) : SNumber := if fitsI64 n then .nat n 1 else .large (n : ℚ)

mutual

/-- `Modelled from the spec:` the parser's expression materialization
underlying `to_atom`: tokens are mapped to the corresponding dirty
expression nodes (negation as a product with −1, `Inv` as the power −1). -/
def tokenToRaw : Token → SAtom
  | .number n => .num (intToNum n)
  | .id s => .var s
  | .binaryOp .add args => .add (tokenListToRaw args)
  | .binaryOp .mul args => .mul (tokenListToRaw args)
  | .binaryOp .neg args =>
      match args with
      | [a] => .mul [.num negOneN, tokenToRaw a]
      | _ => .num zeroN
  | .binaryOp .pow args =>
      match args with
      | [a, b] => .pow (tokenToRaw a) (tokenToRaw b)
      | _ => .num zeroN
  | .binaryOp .inv args =>
      match args with
      | [a] => .pow (tokenToRaw a) (.num negOneN)
      | _ => .num zeroN

def tokenListToRaw : List Token → List SAtom
  | [] => []
  | a :: as => tokenToRaw a :: tokenListToRaw as

end

/-- `Modelled from the spec:` `Token::to_atom` — materialize a clean
(normalized) expression from a token tree. -/
def Token.to_atom (t : Token) : SAtom := normalize (tokenToRaw t)

/-- Translation of the nested `parse_factor` of `Token::to_polynomial`
(src/poly.rs lines 443–516). -/
def tparse_factor (w : EW) (vars : List Ident) (st : ℚ × List Nat) (f : Token) :
    Except PErr (ℚ × List Nat) :=
  match f with
  | .number n => .ok (st.1 * (n : ℚ), st.2)
  | .id s =>
      match vars.indexOf? s with
      | some i => .ok (st.1, st.2.modify (fun old => wrapAdd w old 1) i)
      | none => .error (.panicked "identifier missing from map")
  | .binaryOp .neg args =>
      match args with
      | [a] => tparse_factor w vars (-st.1, st.2) a
      | _ => .error (.err "Wrong args for neg")
  | .binaryOp .pow args =>
      match args with
      | [b, ex] => do
          let i ←
            match b with
            | .id s =>
                match vars.indexOf? s with
                | some i => Except.ok i
                | none => Except.error (.panicked "identifier missing from map")
            | _ => Except.error (.err "Unsupported base")
          match ex with
          | .number n =>
              if fitsI64 n then
                if n < 1 ∨ n > u32max then .error (.err "Invalid exponent")
                else do
                  let k ← fromU32 w n.toNat
                  .ok (st.1, st.2.modify (fun old => wrapAdd w old k) i)
              else .error (.err "Cannot convert to u32")
          | _ => .error (.err "Unsupported exponent")
      | _ => .error (.err "Wrong args for pow")
  | _ => .error (.err "Unsupported expression")

/-- Translation of the nested `parse_term` of `Token::to_polynomial`
(src/poly.rs lines 518–576). -/
def tparse_term (w : EW) (vars : List Ident) (poly : MPoly) (t : Token) :
    Except PErr MPoly := do
  let init : ℚ × List Nat := (1, List.replicate vars.length 0)
  let st ←
    match t with
    | .binaryOp .mul args => args.foldlM (tparse_factor w vars) init
    | .binaryOp .neg args =>
        match args with
        | [a] =>
            (match a with
             | .binaryOp .mul margs => margs.foldlM (tparse_factor w vars) (-init.1, init.2)
             | _ => tparse_factor w vars (-init.1, init.2) a)
        | _ => Except.error (.err "Wrong args for neg")
    | _ => tparse_factor w vars init t
  .ok (poly.append_monomial st.1 st.2)

/-- Translation of `Token::to_polynomial` (src/poly.rs lines 437–603): the
token fast path parses directly with the caller's variable map, with no
validation pass. -/
def Token.to_polynomial (w : EW) (t : Token) (varMap : List Ident) : Except PErr MPoly :=
  match t with
  | .binaryOp .add args => args.foldlM (tparse_term w varMap) (MPoly.newP varMap)
  | _ => tparse_term w varMap (MPoly.newP varMap) t

def isNegOneTok : Token → Bool
  | .number n => n == -1
  | _ => false

/-- Translation of `Token::to_rational_polynomial` (src/poly.rs lines
609–693), fuel-indexed like the expression-tree entry it delegates to. -/
def Token.to_rational_polynomial : Nat → Token → List Ident → Except PErr RPoly
  | 0, _, _ => .error (.panicked "recursion fuel exhausted")
  | fuel + 1, t, vm =>
    match Token.to_polynomial .w32 t vm with
    | .ok num => .ok (RPoly.from_num_den num MPoly.oneP)
    | .error (.panicked m) => .error (.panicked m)
    | .error (.err _) =>
      match t with
      | .number _ | .id _ => do
          let num ← Token.to_polynomial .w32 t vm
          .ok (RPoly.from_num_den num MPoly.oneP)
      | .binaryOp .inv args =>
          match args with
          | [a] => do
              let r ← Token.to_rational_polynomial fuel a vm
              .ok (RPoly.inv r)
          | _ => .error (.panicked "assertion failed: args.len() == 1")
      | .binaryOp .pow args =>
          match args with
          | [b, ex] =>
              if isNegOneTok ex then do
                let r ← Token.to_rational_polynomial fuel b vm
                .ok (RPoly.inv r)
              else
                Symbolica.to_rational_polynomial fuel (Token.to_atom (.binaryOp .pow args)) (some vm)
          | _ =>
              Symbolica.to_rational_polynomial fuel (Token.to_atom (.binaryOp .pow args)) (some vm)
      | .binaryOp .mul args =>
          args.foldlM (fun r a => do
            let argR ← Token.to_rational_polynomial fuel a vm
            let u := RPoly.unify_var_map r argR
            .ok (u.1.mulR u.2)) RPoly.oneR
      | .binaryOp .add args =>
          args.foldlM (fun r a => do
            let argR ← Token.to_rational_polynomial fuel a vm
            let u := RPoly.unify_var_map r argR
            .ok (u.1.addR u.2)) (RPoly.newR (some vm))
      | .binaryOp .neg _ =>
          Symbolica.to_rational_polynomial fuel (Token.to_atom t) (some vm)

/-- Spec-side structural acceptance of a factor (§4.2: a `Num` that is not a
finite-field residue, a `Var`, or `Pow(Var, Num)` with an integer exponent in
`[0, 2³²−1]`). -/
def expOkN : SNumber → Bool
  | .nat p q => decide (q = 1 ∧ 0 ≤ p ∧ p ≤ u32max)
  | .large r => decide ((r.den : Int) = 1 ∧ 0 ≤ r.num ∧ r.num ≤ u32max)
  | .fin _ _ => false

def factorOk : SAtom → Bool
  | .num n => !n.isFin
  | .var _ => true
  | .pow (.var _) (.num n) => expOkN n
  | _ => false

def termOk : SAtom → Bool
  | .mul fs => fs.all factorOk
  | t => factorOk t

/-- Spec-side structural acceptance of a whole expression by the polynomial
fast path. -/
def structOk : SAtom → Bool
  | .add ts => ts.all termOk
  | t => termOk t

mutual

/-- All variable occurrences of an expression in left-to-right order. -/
def rawVars : SAtom → List Ident
  | .num _ => []
  | .var v => [v]
  | .fn _ args => rawVarsList args
  | .pow b e => rawVars b ++ rawVars e
  | .mul args => rawVarsList args
  | .add args => rawVarsList args

def rawVarsList : List SAtom → List Ident
  | [] => []
  | a :: as => rawVars a ++ rawVarsList as

end

/-- Append the members of `l` not yet present to `acc`, in order. -/
def addNew (acc : List Ident) (l : List Ident) : List Ident :=
  l.foldl (fun a v => if v ∈ a then a else a ++ [v]) acc

/-- First-encounter order: the deduplicated left-to-right listing. -/
def firstEncounter (l : List Ident) : List Ident := addNew [] l

/-- The variables a monomial actually uses, in variable-map order. -/
def activeVars (vm : List Ident) (es : List Nat) : List Ident :=
  (vm.zip es).filterMap (fun vk => if vk.2 = 0 then none else some vk.1)

/-- A monomial keyed by variable identifiers: the multiset of
(variable, exponent) pairs with nonzero exponent.  Two polynomials represent
the same monomial exactly when these agree, independently of variable-map
order and padding. -/
def canonMon (vm : List Ident) (es : List Nat) : Multiset (Ident × Nat) :=
  (((vm.zip es).filter (fun vk => vk.2 != 0) : List (Ident × Nat)) : Multiset (Ident × Nat))

/-- The identifier-keyed monomial multiset of a polynomial (its term set
after forgetting the monomial ordering and the variable-map order). -/
def canonPoly (p : MPoly) : Multiset (ℚ × Multiset (Ident × Nat)) :=
  ((p.terms.map (fun t => (t.1, canonMon p.varMap t.2)) : List (ℚ × Multiset (Ident × Nat)))
    : Multiset (ℚ × Multiset (Ident × Nat)))

/-- Proof-side functional model of one exponent-row update of the parse
pass: the row, read as a function from variables to exponents, changes only
at the written variable, with the wrapping `+=` of the `u32` width. -/
def expApply (h : Ident → Nat) (vk : Ident × Nat) : Ident → Nat :=
  if vk.2 = 0 then h
  else fun u => if u = vk.1 then (h u + vk.2) % 4294967296 else h u

/-- Proof-side functional model of the whole exponent row built by the parse
pass for one monomial. -/
def expFold (h : Ident → Nat) (l : List (Ident × Nat)) : Ident → Nat :=
  l.foldl expApply h

/-- The representation invariants of `MultivariatePolynomial` (§3): distinct
variables, no zero coefficients, exponent rows matching the variable map with
entries within the `u32` conversion range, and no duplicated exponent
vector. -/
def MPoly.wf (p : MPoly) : Prop :=
  p.varMap.Nodup ∧
  (∀ t ∈ p.terms, t.1 ≠ 0 ∧ t.2.length = p.varMap.length ∧ ∀ k ∈ t.2, k ≤ 4294967295) ∧
  (p.terms.map Prod.snd).Nodup

instance (p : MPoly) : Decidable p.wf := by
  unfold MPoly.wf; infer_instance

theorem toRat_ratToNum (c : ℚ) : (ratToNum c).toRat = c := by
  unfold ratToNum
  split
  · simp [SNumber.toRat]
    push_cast
    exact Rat.num_div_den c
  · rfl

theorem toRat_numberAdd (a b : SNumber) (ha : a.isFin = false) (hb : b.isFin = false) :
    (numberAdd a b).toRat = a.toRat + b.toRat := by
  cases a <;> cases b <;>
    first
      | (simp only [numberAdd]; rw [toRat_ratToNum])
      | simp [SNumber.isFin] at ha hb

theorem derivative_num (n : SNumber) (x : Ident) :
    derivative (.num n) x = .ok (false, zeroA) := by
  rw [derivative]

theorem derivative_var (v : Ident) (x : Ident) :
    derivative (.var v) x = if v = x then .ok (true, oneA) else .ok (false, zeroA) := by
  rw [derivative]

theorem except_bind_const_true {α : Type} (X : Except String α) (g : α → SAtom) (o : SAtom)
    (h : (do let a ← X; Except.ok (true, g a)) = Except.ok (false, o)) : False := by
  cases X <;> simp_all [Bind.bind, Except.bind]

theorem funFinish_false {self : SAtom} {fa : List SAtom} {td : SAtom} {g : Ident}
    {ga : List SAtom} {d : Bool} {ds : List (Bool × SAtom)} {o : SAtom}
    (h : funFinish self fa td g ga d ds = .ok (false, o)) : o = zeroA := by
  simp only [funFinish] at h
  by_cases hE : (List.filterMap (fun p => if p.2.1 = true then some (p.1, p.2.2) else none)
      ds.enum).isEmpty = true
  · rw [if_pos hE] at h
    simpa using h.symm
  · rw [if_neg hE] at h
    split at h
    · split at h <;> simp at h
    · exact absurd h (fun hc => except_bind_const_true _ _ _ hc)

/-- Every `false` return of the derivative engine writes the literal zero
into `out` (each such exit in src/derivative.rs sets `Number::Natural(0,1)`). -/
theorem derivative_false_zero (e : SAtom) (x : Ident) (o : SAtom)
    (h : derivative e x = .ok (false, o)) : o = zeroA := by
  cases e with
  | num n => rw [derivative_num] at h; simpa using h.symm
  | var v =>
      rw [derivative_var] at h
      split at h <;> simpa using h.symm
  | fn fname args =>
      rw [derivative] at h
      split at h
      · split at h
        · rename_i gname gargs heq
          rcases hd : derivList gargs x with ⟨⟩ | ds <;> simp [hd, Bind.bind, Except.bind] at h
          exact funFinish_false h
        · simp at h
        · simp at h
      · rcases hd : derivList args x with ⟨⟩ | ds <;> simp [hd, Bind.bind, Except.bind] at h
        exact funFinish_false h
  | pow base exp =>
      rw [derivative] at h
      rcases he : derivative exp x with ⟨⟩ | pe <;> simp [he, Bind.bind, Except.bind] at h
      rcases hb : derivative base x with ⟨⟩ | pb <;> simp [hb, Bind.bind, Except.bind] at h
      obtain ⟨b1, d1⟩ := pe
      obtain ⟨b2, d2⟩ := pb
      cases b1 <;> cases b2 <;> simp at h
      exact h.symm
  | mul args =>
      rw [derivative] at h
      rcases hd : derivList args x with ⟨⟩ | ds <;> simp [hd, Bind.bind, Except.bind] at h
      split at h
      · simpa using h.symm
      · simp at h
  | add args =>
      rw [derivative] at h
      rcases hd : derivList args x with ⟨⟩ | ds <;> simp [hd, Bind.bind, Except.bind] at h
      split at h
      · simpa using h.symm
      · simp at h

/-- C1 (amended): whenever `derivative` returns `false`, `out` holds the
literal number 0; hence a written expression other than the literal zero
implies the call returned `true`.  The converse direction of the original
claim ("`true` iff not the literal zero") is refuted by
`derivative_true_with_zero_out`. -/
theorem derivative_false_writes_zero (e : SAtom) (x : Ident) (o : SAtom)
    (h : derivative e x = .ok (false, o)) : o = .num (.nat 0 1) :=
  derivative_false_zero e x o h

theorem derivative_false_writes_zero_witness :
    derivative (.num (.nat 7 1)) "x" = .ok (false, .num (.nat 0 1)) ∧
      (SAtom.num (.nat 0 1)) = .num (.nat 0 1) :=
  ⟨derivative_num _ _,
   derivative_false_writes_zero (.num (.nat 7 1)) "x" _ (derivative_num _ _)⟩

/-- C1 counterexample: on the expression `x · 0` the engine returns `true`
while writing the literal number 0 into `out`, refuting "`true` iff the
written expression is not the literal zero". -/
theorem derivative_true_with_zero_out :
    derivative (.mul [.var "x", .num (.nat 0 1)]) "x" = .ok (true, .num (.nat 0 1)) := by
  simp +decide [derivative, derivList, funFinish, mulJoin, powNewExp, normalize, normalizeList,
    flattenAdd, flattenMul, addCollect, mulCollect, addStep, mulStep, splitTerm, mulKeyOf,
    mergeKey, addBuild, mulBuild, sortAtoms, insertSorted, termOf, nCanon, ratToNum, numberAdd,
    SNumber.isFin, SNumber.toRat, SAtom.beq, SAtom.beqList, zeroN, oneN, negOneN, zeroA, oneA,
    i64max, EXP, LOG, SIN, COS, DERIVATIVE, Bind.bind, Except.bind, Pure.pure, Except.pure]

/-- C10: for a `Pow` whose exponent is a `Num` holding any rational value
(machine or large, fractions and negatives included), when the base
derivative is nonzero the engine emits `db · e · b^(e−1)` where the new
exponent is a single `Num` node carrying the numerically computed value
`e − 1`, not the symbolic sum `e + (−1)`. -/
theorem derivative_pow_num_exact (b : SAtom) (x : Ident) (q : SNumber) (db : SAtom)
    (hb : derivative b x = .ok (true, db)) :
    derivative (.pow b (.num q)) x =
      .ok (true, normalize (.mul [db, .num q, .pow b (powNewExp (.num q))])) ∧
    powNewExp (.num q) = .num (numberAdd q negOneN) ∧
    (q.isFin = false → (numberAdd q negOneN).toRat = q.toRat - 1) := by
  refine ⟨?_, rfl, ?_⟩
  · rw [derivative]
    simp [derivative_num, hb, Bind.bind, Except.bind]
  · intro hq
    rw [toRat_numberAdd q negOneN hq (by simp [negOneN, SNumber.isFin])]
    have : (negOneN).toRat = -1 := by
      simp [negOneN, SNumber.toRat]
    rw [this]
    ring

theorem derivative_pow_num_exact_witness :
    derivative (.var "x") "x" = .ok (true, oneA) ∧
      (derivative (.pow (.var "x") (.num (.nat 1 2))) "x" =
        .ok (true, normalize (.mul [oneA, .num (.nat 1 2),
          .pow (.var "x") (powNewExp (.num (.nat 1 2)))])) ∧
       powNewExp (.num (.nat 1 2)) = .num (numberAdd (.nat 1 2) negOneN) ∧
       ((SNumber.nat 1 2).isFin = false →
        (numberAdd (.nat 1 2) negOneN).toRat = (SNumber.nat 1 2).toRat - 1)) :=
  ⟨by rw [derivative_var]; simp,
   derivative_pow_num_exact (.var "x") "x" (.nat 1 2) oneA (by rw [derivative_var]; simp)⟩

/-- C2 (amended): with the narrow `u8` width, `to_polynomial` on `x^n`
succeeds for every `n ≤ 254` (in particular for `x^2`); for
`255 ≤ n ≤ 2³²−1` validation passes but `Exponent::from_u32` panics instead
of returning the dedicated error; the dedicated bad-exponent error is
returned only when the exponent lies outside `[0, 2³²−1]`. -/
theorem to_polynomial_u8_single_power (n : Nat) :
    (to_polynomial .w8 (.pow (.var "x") (.num (.nat 2 1))) none = .ok ⟨["x"], [(1, [2])]⟩) ∧
    (n ≤ 254 →
      to_polynomial .w8 (.pow (.var "x") (.num (.nat n 1))) none = .ok ⟨["x"], [(1, [n])]⟩) ∧
    (255 ≤ n → n ≤ 4294967295 →
      to_polynomial .w8 (.pow (.var "x") (.num (.nat n 1))) none =
        .error (.panicked "Exponent too large for u8")) ∧
    (4294967295 < n →
      to_polynomial .w8 (.pow (.var "x") (.num (.nat n 1))) none =
        .error (.err "Exponent negative or a fraction")) := by
  have hcheck : ∀ _ : (n : Int) ≤ u32max,
      checkPhase (.pow (.var "x") (.num (.nat n 1))) none = .ok ["x"] := by
    intro hn
    have hc : ((1 : Int) = 1 ∧ (0 : Int) ≤ (n : Int) ∧ (n : Int) ≤ u32max) :=
      ⟨rfl, by omega, hn⟩
    simp [checkPhase, check_term, check_factor, pushVar, Bind.bind, Except.bind, hc]
  refine ⟨by decide, ?_, ?_, ?_⟩
  · intro hn
    rw [to_polynomial, hcheck (by simp only [u32max]; omega)]
    have hmod : ((n : Int) % 4294967296).toNat = n := by omega
    have hlt : n < 255 := by omega
    have h256 : (0 + n) % 256 = n := by omega
    have hidx : List.indexOf? "x" ["x"] = some 0 := by decide
    simp [Bind.bind, Except.bind, buildPhase, parse_term, parse_factor, MPoly.newP, hmod,
      fromU32, wrapAdd, MPoly.append_monomial, insertMonomial, List.modify, List.modifyTailIdx,
      List.modifyHead, h256, hlt, hidx]
    omega
  · intro h1 h2
    rw [to_polynomial, hcheck (by simp only [u32max]; omega)]
    have hmod : ((n : Int) % 4294967296).toNat = n := by omega
    have hge : ¬ n < 255 := by omega
    have hidx : List.indexOf? "x" ["x"] = some 0 := by decide
    simp [Bind.bind, Except.bind, buildPhase, parse_term, parse_factor, MPoly.newP, hmod,
      fromU32, hge, hidx]
  · intro h1
    rw [to_polynomial]
    have hc : ¬ ((n : Int) ≤ u32max) := by
      simp only [u32max]; omega
    simp [checkPhase, check_term, check_factor, pushVar, Bind.bind, Except.bind, hc]

theorem to_polynomial_u8_single_power_witness :
    to_polynomial .w8 (.pow (.var "x") (.num (.nat 300 1))) none =
      .error (.panicked "Exponent too large for u8") :=
  (to_polynomial_u8_single_power 300).2.2.1 (by norm_num) (by norm_num)

/-- C2 counterexample: `to_polynomial("x^256")` at width `u8` panics in
`from_u32` instead of returning the dedicated `BadExponent` error. -/
theorem to_polynomial_u8_256_panics :
    to_polynomial .w8 (.pow (.var "x") (.num (.nat 256 1))) none =
      .error (.panicked "Exponent too large for u8") := by
  decide

theorem nCanon_zero : nCanon zeroN = zeroN := by
  have h0 : ((0 : Int) : ℚ) / ((1 : Int) : ℚ) = 0 := by norm_num
  simp only [nCanon, zeroN, h0, ratToNum]
  norm_num [i64max]

theorem normalize_num_eq (n : SNumber) : normalize (.num n) = .num (nCanon n) := by
  rw [normalize.eq_def]

theorem normalize_add_eq (l : List SAtom) :
    normalize (.add l) = addBuild (addCollect (flattenAdd (normalizeList l))) := by
  rw [normalize.eq_def]

theorem normalize_zeroA : normalize zeroA = zeroA := by
  rw [zeroA, normalize_num_eq, nCanon_zero]

theorem addStep_zeroA (st : ℚ × List (SAtom × ℚ)) : addStep st zeroA = st := by
  have h0 : (SNumber.nat 0 1).toRat = 0 := by
    simp [SNumber.toRat]
  simp [addStep, splitTerm, zeroA, zeroN, SNumber.isFin, h0]

theorem normalizeList_append (a b : List SAtom) :
    normalizeList (a ++ b) = normalizeList a ++ normalizeList b := by
  induction a with
  | nil => simp [normalizeList]
  | cons x xs ih => simp [normalizeList, ih]

theorem flattenAdd_append (a b : List SAtom) :
    flattenAdd (a ++ b) = flattenAdd a ++ flattenAdd b := by
  induction a with
  | nil => simp [flattenAdd]
  | cons x xs ih => cases x <;> simp [flattenAdd, ih]

theorem normalize_add_cons_zero (l : List SAtom) :
    normalize (.add (zeroA :: l)) = normalize (.add l) := by
  rw [normalize_add_eq, normalize_add_eq]
  have h1 : normalizeList (zeroA :: l) = zeroA :: normalizeList l := by
    rw [normalizeList, normalize_zeroA]
  rw [h1]
  have h2 : flattenAdd (zeroA :: normalizeList l) = zeroA :: flattenAdd (normalizeList l) := by
    rfl
  rw [h2]
  have h3 : addCollect (zeroA :: flattenAdd (normalizeList l)) =
      addCollect (flattenAdd (normalizeList l)) := by
    simp [addCollect, addStep_zeroA]
  rw [h3]

theorem normalize_add_append_zero (l : List SAtom) :
    normalize (.add (l ++ [zeroA])) = normalize (.add l) := by
  rw [normalize_add_eq, normalize_add_eq]
  rw [normalizeList_append]
  have h1 : normalizeList [zeroA] = [zeroA] := by
    rw [normalizeList, normalize_zeroA]; rfl
  rw [h1, flattenAdd_append]
  have h2 : flattenAdd [zeroA] = [zeroA] := rfl
  rw [h2]
  have h3 : addCollect (flattenAdd (normalizeList l) ++ [zeroA]) =
      addCollect (flattenAdd (normalizeList l)) := by
    simp [addCollect, List.foldl_append, addStep_zeroA]
  rw [h3]

theorem normalize_add_pair_zero_right (d : SAtom) :
    normalize (.add [d, zeroA]) = normalize (.add [d]) :=
  normalize_add_append_zero [d]

theorem normalize_add_zero_zero : normalize (.add [zeroA, zeroA]) = zeroA := by
  rw [normalize_add_cons_zero, normalize_add_cons_zero, normalize_add_eq]
  simp [normalizeList, flattenAdd, addCollect, addBuild, sortAtoms, zeroA]

/-- C9: differentiation distributes over `Add`: the derivative the engine
writes for the two-term sum `e + f` is exactly the normalized sum of the
expressions it writes for `e` and for `f`, and the nonzero flag is their
disjunction. -/
theorem derivative_add_distributes (e f : SAtom) (x : Ident)
    (b1 b2 : Bool) (d1 d2 : SAtom)
    (h1 : derivative e x = .ok (b1, d1)) (h2 : derivative f x = .ok (b2, d2)) :
    derivative (.add [e, f]) x = .ok (b1 || b2, normalize (.add [d1, d2])) := by
  have hl : derivList [e, f] x = .ok [(b1, d1), (b2, d2)] := by
    rw [derivList, derivList, derivList]
    simp [h1, h2, Bind.bind, Except.bind]
  rw [derivative]
  rw [hl]
  cases b1 with
  | true =>
      cases b2 with
      | true => simp [Bind.bind, Except.bind, List.filter]
      | false =>
          have hz : d2 = zeroA := derivative_false_zero f x d2 h2
          subst hz
          simp [Bind.bind, Except.bind, List.filter, normalize_add_pair_zero_right]
  | false =>
      have hz : d1 = zeroA := derivative_false_zero e x d1 h1
      subst hz
      cases b2 with
      | true => simp [Bind.bind, Except.bind, List.filter, normalize_add_cons_zero]
      | false =>
          have hz2 : d2 = zeroA := derivative_false_zero f x d2 h2
          subst hz2
          simp [Bind.bind, Except.bind, List.filter, normalize_add_zero_zero]

/-- Unfolding equation for a reified derivative tag whose last argument is a
function node. -/
theorem derivative_der_tag (nums : List SAtom) (g : Ident) (ga : List SAtom) (x : Ident) :
    derivative (.fn DERIVATIVE (nums ++ [.fn g ga])) x = (do
      let ds ← derivList ga x
      funFinish (.fn DERIVATIVE (nums ++ [.fn g ga])) (nums ++ [.fn g ga])
        (.fn g ga) g ga true ds) := by
  rw [derivative]
  rw [if_pos rfl]
  split
  · rename_i gname gargs h
    rw [List.getLast?_concat] at h
    have h1 : SAtom.fn g ga = SAtom.fn gname gargs := by injection h
    cases h1
    rfl
  · rename_i val hcon h
    rw [List.getLast?_concat] at h
    have h1 : SAtom.fn g ga = val := by injection h
    exact (hcon g ga h1.symm).elim
  · rename_i h
    rw [List.getLast?_concat] at h
    cases h

/-- C8 (amended): when the function `g` being differentiated has exactly one
argument `u` with nonzero derivative `du` and `g`'s name is `log`, `sin` or
`cos`, the engine writes respectively `u^(−1)`, `cos(u)`, `sin(u)·(−1)`
multiplied with `du` (via `mulJoin`) and normalized, and returns `true` —
including when the outer node is a reified derivative tag with `g` as its
inner function; for `exp` the multiplicand is the outer node itself, which
equals `exp(u)` exactly when the outer node is `g` and is the tag node
otherwise (the original claim's "emit `exp(u)`" fails there, see the
counterexample). -/
theorem derivative_builtin_single_arg
    (gname : Ident) (u self : SAtom) (nums : List SAtom) (x : Ident) (du : SAtom)
    (hdu : derivative u x = .ok (true, du))
    (hself : self = .fn gname [u] ∨ self = .fn DERIVATIVE (nums ++ [.fn gname [u]])) :
    (gname = LOG →
      derivative self x = .ok (true, normalize (mulJoin du (.pow u (.num negOneN))))) ∧
    (gname = SIN →
      derivative self x = .ok (true, normalize (mulJoin du (.fn COS [u])))) ∧
    (gname = COS →
      derivative self x =
        .ok (true, normalize (mulJoin du (.mul [.fn SIN [u], .num negOneN])))) ∧
    (gname = EXP →
      derivative self x = .ok (true, normalize (mulJoin du self))) := by
  have hds : derivList [u] x = .ok [(true, du)] := by
    rw [derivList, derivList]
    simp [hdu, Bind.bind, Except.bind]
  refine ⟨?_, ?_, ?_, ?_⟩ <;> intro hg <;> subst hg <;> rcases hself with h | h <;> subst h <;>
    first
      | (rw [derivative]
         simp +decide [hds, funFinish, Bind.bind, Except.bind, EXP, LOG, SIN, COS, DERIVATIVE]
         done)
      | (rw [derivative_der_tag]
         simp +decide [hds, funFinish, Bind.bind, Except.bind, EXP, LOG, SIN, COS, DERIVATIVE]
         done)

theorem derivative_builtin_single_arg_witness :
    derivative (.var "x") "x" = .ok (true, oneA) ∧
    derivative (.fn LOG [.var "x"]) "x" =
      .ok (true, normalize (mulJoin oneA (.pow (.var "x") (.num negOneN)))) :=
  ⟨by rw [derivative_var]; simp,
   (derivative_builtin_single_arg LOG (.var "x") (.fn LOG [.var "x"]) [] "x" oneA
     (by rw [derivative_var]; simp) (Or.inl rfl)).1 rfl⟩

/-- C8 counterexample: on the reified tag `derivative(1, exp(x))` the engine
multiplies the outer tag node itself with `du` and the written result is the
tag node again — not `exp(u)·du` normalized (which is `exp(x)`), refuting the
claim that the `exp` case emits `exp(u)` also under a derivative tag. -/
theorem derivative_tagged_exp_keeps_tag :
    derivative (.fn DERIVATIVE [.num oneN, .fn EXP [.var "x"]]) "x" =
      .ok (true, .fn DERIVATIVE [.num oneN, .fn EXP [.var "x"]]) ∧
    normalize (mulJoin (.num oneN) (.fn EXP [.var "x"])) = .fn EXP [.var "x"] ∧
    (SAtom.fn DERIVATIVE [.num oneN, .fn EXP [.var "x"]]) ≠ .fn EXP [.var "x"] := by
  refine ⟨?_, ?_, by simp⟩
  · show derivative (.fn DERIVATIVE ([.num oneN] ++ [.fn EXP [.var "x"]])) "x" = _
    rw [derivative_der_tag]
    simp +decide [derivative, derivList, funFinish, mulJoin, powNewExp, normalize, normalizeList,
      flattenAdd, flattenMul, addCollect, mulCollect, addStep, mulStep, splitTerm, mulKeyOf,
      mergeKey, addBuild, mulBuild, sortAtoms, insertSorted, termOf, nCanon, ratToNum, numberAdd,
      SNumber.isFin, SNumber.toRat, SAtom.beq, SAtom.beqList, zeroN, oneN, negOneN, zeroA, oneA,
      i64max, EXP, LOG, SIN, COS, DERIVATIVE, Bind.bind, Except.bind, Pure.pure, Except.pure]
  · simp +decide [mulJoin, normalize, normalizeList,
      flattenAdd, flattenMul, addCollect, mulCollect, addStep, mulStep, splitTerm, mulKeyOf,
      mergeKey, addBuild, mulBuild, sortAtoms, insertSorted, termOf, nCanon, ratToNum, numberAdd,
      SNumber.isFin, SNumber.toRat, SAtom.beq, SAtom.beqList, zeroN, oneN, negOneN, zeroA, oneA,
      i64max, EXP, LOG, SIN, COS, DERIVATIVE]

theorem numToRatM_no_err (n : SNumber) (m : String) : numToRatM n ≠ .error (.err m) := by
  cases n <;> simp [numToRatM]

theorem fromU32_no_err (w : EW) (n : Nat) (m : String) : fromU32 w n ≠ .error (.err m) := by
  cases w <;> simp only [fromU32] <;> try split
  all_goals simp

theorem parse_factor_no_err (w : EW) (vars : List Ident) (st : ℚ × List Nat) (f : SAtom)
    (m : String) : parse_factor w vars st f ≠ .error (.err m) := by
  intro h
  cases f with
  | num n =>
      simp only [parse_factor, Bind.bind, Except.bind] at h
      rcases hn : numToRatM n with er | c <;> rw [hn] at h <;> simp at h
      exact numToRatM_no_err n m (h ▸ hn)
  | var v =>
      simp only [parse_factor] at h
      split at h <;> simp at h
  | pow b e =>
      simp only [parse_factor, Bind.bind, Except.bind] at h
      rcases b with _ | bv | _ | _ | _ | _ <;> simp at h
      rcases hi : List.indexOf? bv vars with _ | i <;> rw [hi] at h
      · simp at h
      · rcases e with en | _ | _ | _ | _ | _ <;> simp at h
        rcases en with ⟨p, q⟩ | r | ⟨a, bb⟩ <;> simp at h
        · rcases hf : fromU32 w ((p % 4294967296).toNat) with er | k <;> rw [hf] at h <;>
            simp at h
          exact fromU32_no_err _ _ m (h ▸ hf)
        · split at h
          · rcases hf : fromU32 w r.num.toNat with er | k <;> rw [hf] at h <;> simp at h
            exact fromU32_no_err _ _ m (h ▸ hf)
          · simp at h
  | fn f args => simp [parse_factor] at h
  | mul args => simp [parse_factor] at h
  | add args => simp [parse_factor] at h

theorem foldlM_parse_factor_no_err (w : EW) (vars : List Ident) (fs : List SAtom)
    (st : ℚ × List Nat) (m : String) :
    fs.foldlM (parse_factor w vars) st ≠ .error (.err m) := by
  induction fs generalizing st with
  | nil => simp [List.foldlM, pure, Except.pure]
  | cons f rest ih =>
      intro h
      rw [List.foldlM_cons] at h
      rcases hf : parse_factor w vars st f with e | st'
      · rw [hf] at h
        simp [Bind.bind, Except.bind] at h
        exact parse_factor_no_err w vars st f m (h ▸ hf)
      · rw [hf] at h
        simp [Bind.bind, Except.bind] at h
        exact ih st' h

theorem parse_term_no_err (w : EW) (vars : List Ident) (poly : MPoly) (t : SAtom)
    (m : String) : parse_term w vars poly t ≠ .error (.err m) := by
  intro h
  simp only [parse_term, Bind.bind, Except.bind] at h
  split at h
  · rename_i fs
    rcases hf : fs.foldlM (parse_factor w vars) (1, List.replicate vars.length 0) with e | st'
    · rw [hf] at h
      simp at h
      exact foldlM_parse_factor_no_err w vars fs _ m (h ▸ hf)
    · rw [hf] at h
      simp at h
  · rcases hf : parse_factor w vars (1, List.replicate vars.length 0) t with e | st'
    · rw [hf] at h
      simp at h
      exact parse_factor_no_err w vars _ t m (h ▸ hf)
    · rw [hf] at h
      simp at h

theorem foldlM_parse_term_no_err (w : EW) (vars : List Ident) (ts : List SAtom)
    (p : MPoly) (m : String) :
    ts.foldlM (parse_term w vars) p ≠ .error (.err m) := by
  induction ts generalizing p with
  | nil => simp [List.foldlM, pure, Except.pure]
  | cons t rest ih =>
      intro h
      rw [List.foldlM_cons] at h
      rcases hf : parse_term w vars p t with e' | p'
      · rw [hf] at h
        simp [Bind.bind, Except.bind] at h
        exact parse_term_no_err w vars p t m (h ▸ hf)
      · rw [hf] at h
        simp [Bind.bind, Except.bind] at h
        exact ih p' h

theorem buildPhase_no_err (w : EW) (e : SAtom) (vars : List Ident) (m : String) :
    buildPhase w e vars ≠ .error (.err m) := by
  simp only [buildPhase]
  split
  · exact foldlM_parse_term_no_err w vars _ _ m
  · exact parse_term_no_err w vars _ e m

theorem addNew_append (vars a b : List Ident) :
    addNew vars (a ++ b) = addNew (addNew vars a) b := by
  simp [addNew, List.foldl_append]

theorem pushVar_true (vars : List Ident) (v : Ident) :
    pushVar true vars v = .ok (addNew vars [v]) := by
  by_cases h : v ∈ vars <;> simp [pushVar, addNew, h]

theorem pushVar_false (vars : List Ident) (v : Ident) :
    pushVar false vars v =
      if v ∈ vars then .ok vars
      else .error (.err "Expression contains variable that is not in variable map") := by
  by_cases h : v ∈ vars <;> simp [pushVar, h]

theorem check_factor_true_ok (f : SAtom) (vars vars' : List Ident)
    (h : check_factor true vars f = .ok vars') : vars' = addNew vars (rawVars f) := by
  cases f with
  | num n =>
      cases n with
      | nat p q => simp [check_factor] at h; simp [rawVars, addNew, h]
      | large r => simp [check_factor] at h; simp [rawVars, addNew, h]
      | fin a b => simp [check_factor] at h
  | var v =>
      simp only [check_factor, pushVar_true] at h
      injection h with h
      simp [rawVars, ← h]
  | fn g args => simp [check_factor] at h
  | add ts => simp [check_factor] at h
  | mul fs => simp [check_factor] at h
  | pow b e =>
      cases b with
      | var v =>
          cases e with
          | num n =>
              cases n with
              | nat p q =>
                  simp only [check_factor, pushVar_true, Bind.bind, Except.bind] at h
                  rcases h' : decide (q = 1 ∧ 0 ≤ p ∧ p ≤ u32max) with _ | _
                  · rw [if_neg (by simpa using h')] at h; simp at h
                  · rw [if_pos (by simpa using h')] at h
                    injection h with h
                    simp [rawVars, ← h]
              | large r =>
                  simp only [check_factor, pushVar_true, Bind.bind, Except.bind] at h
                  rcases h' : decide ((r.den : Int) = 1 ∧ 0 ≤ r.num ∧ r.num ≤ u32max)
                    with _ | _
                  · rw [if_neg (by simpa using h')] at h; simp at h
                  · rw [if_pos (by simpa using h')] at h
                    injection h with h
                    simp [rawVars, ← h]
              | fin a b =>
                  simp [check_factor, pushVar_true, Bind.bind, Except.bind] at h
          | var v' => simp [check_factor, pushVar_true, Bind.bind, Except.bind] at h
          | fn g args => simp [check_factor, pushVar_true, Bind.bind, Except.bind] at h
          | pow b' e' => simp [check_factor, pushVar_true, Bind.bind, Except.bind] at h
          | mul fs => simp [check_factor, pushVar_true, Bind.bind, Except.bind] at h
          | add ts => simp [check_factor, pushVar_true, Bind.bind, Except.bind] at h
      | num n => simp [check_factor, Bind.bind, Except.bind] at h
      | fn g args => simp [check_factor, Bind.bind, Except.bind] at h
      | pow b' e' => simp [check_factor, Bind.bind, Except.bind] at h
      | mul fs => simp [check_factor, Bind.bind, Except.bind] at h
      | add ts => simp [check_factor, Bind.bind, Except.bind] at h

theorem foldlM_check_factor_true (fs : List SAtom) (vars vars' : List Ident)
    (h : fs.foldlM (check_factor true) vars = .ok vars') :
    vars' = addNew vars (rawVarsList fs) := by
  induction fs generalizing vars with
  | nil =>
      simp [List.foldlM, pure, Except.pure] at h
      simp [rawVarsList, addNew, h]
  | cons f rest ih =>
      rw [List.foldlM_cons] at h
      rcases hf : check_factor true vars f with e' | w
      · rw [hf] at h; simp [Bind.bind, Except.bind] at h
      · rw [hf] at h; simp only [Bind.bind, Except.bind] at h
        have h1 := check_factor_true_ok f vars w hf
        have h2 := ih w h
        rw [h2, h1, ← addNew_append]
        simp [rawVarsList]

theorem check_term_true_ok (t : SAtom) (vars vars' : List Ident)
    (h : check_term true vars t = .ok vars') : vars' = addNew vars (rawVars t) := by
  cases t with
  | mul fs =>
      rw [show rawVars (.mul fs) = rawVarsList fs from by simp [rawVars]]
      exact foldlM_check_factor_true fs vars vars' (by simpa [check_term] using h)
  | num n => exact check_factor_true_ok _ vars vars' (by simpa [check_term] using h)
  | var v => exact check_factor_true_ok _ vars vars' (by simpa [check_term] using h)
  | fn g args => exact check_factor_true_ok _ vars vars' (by simpa [check_term] using h)
  | pow b e => exact check_factor_true_ok _ vars vars' (by simpa [check_term] using h)
  | add ts => exact check_factor_true_ok _ vars vars' (by simpa [check_term] using h)

theorem foldlM_check_term_true (ts : List SAtom) (vars vars' : List Ident)
    (h : ts.foldlM (check_term true) vars = .ok vars') :
    vars' = addNew vars (rawVarsList ts) := by
  induction ts generalizing vars with
  | nil =>
      simp [List.foldlM, pure, Except.pure] at h
      simp [rawVarsList, addNew, h]
  | cons t rest ih =>
      rw [List.foldlM_cons] at h
      rcases ht : check_term true vars t with e' | w
      · rw [ht] at h; simp [Bind.bind, Except.bind] at h
      · rw [ht] at h; simp only [Bind.bind, Except.bind] at h
        have h1 := check_term_true_ok t vars w ht
        have h2 := ih w h
        rw [h2, h1, ← addNew_append]
        simp [rawVarsList]

theorem checkPhase_none_ok (e : SAtom) (vars' : List Ident)
    (h : checkPhase e none = .ok vars') : vars' = firstEncounter (rawVars e) := by
  cases e with
  | add ts =>
      rw [show rawVars (.add ts) = rawVarsList ts from by simp [rawVars]]
      exact foldlM_check_term_true ts [] vars' (by simpa [checkPhase] using h)
  | num n => exact check_term_true_ok _ [] vars' (by simpa [checkPhase] using h)
  | var v => exact check_term_true_ok _ [] vars' (by simpa [checkPhase] using h)
  | fn g args => exact check_term_true_ok _ [] vars' (by simpa [checkPhase] using h)
  | pow b e => exact check_term_true_ok _ [] vars' (by simpa [checkPhase] using h)
  | mul fs => exact check_term_true_ok _ [] vars' (by simpa [checkPhase] using h)

theorem check_factor_false_ok (f : SAtom) (V : List Ident) (hf : factorOk f = true) :
    check_factor false V f =
      if (rawVars f).all (fun v => decide (v ∈ V)) then .ok V
      else .error (.err "Expression contains variable that is not in variable map") := by
  cases f with
  | num n =>
      cases n with
      | nat p q => simp [check_factor, rawVars]
      | large r => simp [check_factor, rawVars]
      | fin a b => simp [factorOk, SNumber.isFin] at hf
  | var v =>
      by_cases h : v ∈ V <;> simp [check_factor, pushVar_false, rawVars, h]
  | fn g args => simp [factorOk] at hf
  | add ts => simp [factorOk] at hf
  | mul fs => simp [factorOk] at hf
  | pow b e =>
      cases b with
      | var v =>
          cases e with
          | num n =>
              have he : expOkN n = true := by simpa [factorOk] using hf
              cases n with
              | nat p q =>
                  simp only [expOkN, decide_eq_true_eq] at he
                  by_cases h : v ∈ V <;>
                    simp [check_factor, pushVar_false, rawVars, h, he, Bind.bind,
                      Except.bind]
              | large r =>
                  simp only [expOkN, decide_eq_true_eq] at he
                  by_cases h : v ∈ V <;>
                    simp [check_factor, pushVar_false, rawVars, h, he, Bind.bind,
                      Except.bind]
              | fin a b => simp [factorOk, expOkN] at hf
          | var v' => simp [factorOk] at hf
          | fn g args => simp [factorOk] at hf
          | pow b' e' => simp [factorOk] at hf
          | mul fs => simp [factorOk] at hf
          | add ts => simp [factorOk] at hf
      | num n => simp [factorOk] at hf
      | fn g args => simp [factorOk] at hf
      | pow b' e' => simp [factorOk] at hf
      | mul fs => simp [factorOk] at hf
      | add ts => simp [factorOk] at hf

theorem foldlM_check_factor_false (fs : List SAtom) (V : List Ident)
    (hf : fs.all factorOk = true) :
    fs.foldlM (check_factor false) V =
      if (rawVarsList fs).all (fun v => decide (v ∈ V)) then .ok V
      else .error (.err "Expression contains variable that is not in variable map") := by
  induction fs with
  | nil => simp [List.foldlM, pure, Except.pure, rawVarsList]
  | cons f rest ih =>
      rw [List.all_cons, Bool.and_eq_true] at hf
      rw [List.foldlM_cons, check_factor_false_ok f V hf.1]
      by_cases hall : (rawVars f).all (fun v => decide (v ∈ V)) = true
      · rw [if_pos hall]
        simp only [Bind.bind, Except.bind]
        rw [ih hf.2]
        simp [rawVarsList, List.all_append, hall]
      · rw [if_neg hall]
        simp only [Bind.bind, Except.bind]
        simp only [Bool.not_eq_true] at hall
        simp [rawVarsList, List.all_append, hall]

theorem check_term_false_ok (t : SAtom) (V : List Ident) (ht : termOk t = true) :
    check_term false V t =
      if (rawVars t).all (fun v => decide (v ∈ V)) then .ok V
      else .error (.err "Expression contains variable that is not in variable map") := by
  cases t with
  | mul fs =>
      rw [show rawVars (.mul fs) = rawVarsList fs from by simp [rawVars]]
      rw [show check_term false V (.mul fs) = fs.foldlM (check_factor false) V from by
        simp [check_term]]
      exact foldlM_check_factor_false fs V (by simpa [termOk] using ht)
  | num n =>
      rw [show check_term false V (.num n) = check_factor false V (.num n) from by
        simp [check_term]]
      exact check_factor_false_ok _ V (by simpa [termOk] using ht)
  | var v =>
      rw [show check_term false V (.var v) = check_factor false V (.var v) from by
        simp [check_term]]
      exact check_factor_false_ok _ V (by simpa [termOk] using ht)
  | fn g args =>
      rw [show check_term false V (.fn g args) = check_factor false V (.fn g args) from by
        simp [check_term]]
      exact check_factor_false_ok _ V (by simpa [termOk] using ht)
  | pow b e =>
      rw [show check_term false V (.pow b e) = check_factor false V (.pow b e) from by
        simp [check_term]]
      exact check_factor_false_ok _ V (by simpa [termOk] using ht)
  | add ts =>
      rw [show check_term false V (.add ts) = check_factor false V (.add ts) from by
        simp [check_term]]
      exact check_factor_false_ok _ V (by simpa [termOk] using ht)

theorem foldlM_check_term_false (ts : List SAtom) (V : List Ident)
    (ht : ts.all termOk = true) :
    ts.foldlM (check_term false) V =
      if (rawVarsList ts).all (fun v => decide (v ∈ V)) then .ok V
      else .error (.err "Expression contains variable that is not in variable map") := by
  induction ts with
  | nil => simp [List.foldlM, pure, Except.pure, rawVarsList]
  | cons t rest ih =>
      rw [List.all_cons, Bool.and_eq_true] at ht
      rw [List.foldlM_cons, check_term_false_ok t V ht.1]
      by_cases hall : (rawVars t).all (fun v => decide (v ∈ V)) = true
      · rw [if_pos hall]
        simp only [Bind.bind, Except.bind]
        rw [ih ht.2]
        simp [rawVarsList, List.all_append, hall]
      · rw [if_neg hall]
        simp only [Bind.bind, Except.bind]
        simp only [Bool.not_eq_true] at hall
        simp [rawVarsList, List.all_append, hall]

theorem checkPhase_some (e : SAtom) (V : List Ident) (hs : structOk e = true) :
    checkPhase e (some V) =
      if (rawVars e).all (fun v => decide (v ∈ V)) then .ok V
      else .error (.err "Expression contains variable that is not in variable map") := by
  cases e with
  | add ts =>
      rw [show rawVars (.add ts) = rawVarsList ts from by simp [rawVars]]
      rw [show checkPhase (.add ts) (some V) = ts.foldlM (check_term false) V from by
        simp [checkPhase]]
      exact foldlM_check_term_false ts V (by simpa [structOk] using hs)
  | num n =>
      exact (by simpa [checkPhase] using
        check_term_false_ok (.num n) V (by simpa [structOk] using hs))
  | var v =>
      exact (by simpa [checkPhase] using
        check_term_false_ok (.var v) V (by simpa [structOk] using hs))
  | fn g args =>
      exact (by simpa [checkPhase] using
        check_term_false_ok (.fn g args) V (by simpa [structOk] using hs))
  | pow b e =>
      exact (by simpa [checkPhase] using
        check_term_false_ok (.pow b e) V (by simpa [structOk] using hs))
  | mul fs =>
      exact (by simpa [checkPhase] using
        check_term_false_ok (.mul fs) V (by simpa [structOk] using hs))

theorem append_monomial_varMap (p : MPoly) (c : ℚ) (es : List Nat) :
    (p.append_monomial c es).varMap = p.varMap := by
  simp only [MPoly.append_monomial]
  split <;> rfl

theorem bind_append_varMap (M : Except PErr (ℚ × List Nat)) (poly p : MPoly)
    (h : (do
        let st ← M
        Except.ok (poly.append_monomial st.1 st.2) : Except PErr MPoly) = .ok p) :
    p.varMap = poly.varMap := by
  rcases M with e' | st
  · simp [Bind.bind, Except.bind] at h
  · simp only [Bind.bind, Except.bind] at h
    injection h with h
    rw [← h, append_monomial_varMap]

theorem parse_term_varMap (w : EW) (vars : List Ident) (poly : MPoly) (t : SAtom)
    (p : MPoly) (h : parse_term w vars poly t = .ok p) : p.varMap = poly.varMap := by
  cases t <;> exact bind_append_varMap _ poly p (by simpa only [parse_term] using h)

theorem foldlM_parse_term_varMap (w : EW) (vars : List Ident) (ts : List SAtom)
    (poly p : MPoly) (h : ts.foldlM (parse_term w vars) poly = .ok p) :
    p.varMap = poly.varMap := by
  induction ts generalizing poly with
  | nil =>
      simp [List.foldlM, pure, Except.pure] at h
      rw [← h]
  | cons t rest ih =>
      rw [List.foldlM_cons] at h
      rcases ht : parse_term w vars poly t with e' | q
      · rw [ht] at h; simp [Bind.bind, Except.bind] at h
      · rw [ht] at h
        simp only [Bind.bind, Except.bind] at h
        rw [ih q h, parse_term_varMap w vars poly t q ht]

theorem buildPhase_varMap (w : EW) (e : SAtom) (vars : List Ident) (p : MPoly)
    (h : buildPhase w e vars = .ok p) : p.varMap = vars := by
  cases e with
  | add ts =>
      exact foldlM_parse_term_varMap w vars ts (MPoly.newP vars) p
        (by simpa [buildPhase] using h)
  | num n => exact parse_term_varMap w vars _ _ p (by simpa [buildPhase] using h)
  | var v => exact parse_term_varMap w vars _ _ p (by simpa [buildPhase] using h)
  | fn g args => exact parse_term_varMap w vars _ _ p (by simpa [buildPhase] using h)
  | pow b e' => exact parse_term_varMap w vars _ _ p (by simpa [buildPhase] using h)
  | mul fs => exact parse_term_varMap w vars _ _ p (by simpa [buildPhase] using h)

/-- C5: `to_polynomial` fails exactly when the validation pass fails, with the
same recoverable error; and when validation succeeds the result is exactly the
construction pass run on the collected variables.  Since the parse pass has no
recoverable-error exit (`buildPhase_no_err` is used inside the proof), every
returned error predates any monomial being appended, so a malformed input never
yields a partially filled polynomial. -/
theorem to_polynomial_errors_from_validation (w : EW) (e : SAtom)
    (vm : Option (List Ident)) (m : String) :
    (to_polynomial w e vm = .error (.err m) ↔ checkPhase e vm = .error (.err m)) ∧
    (∀ vars, checkPhase e vm = .ok vars → to_polynomial w e vm = buildPhase w e vars) := by
  constructor
  · rcases hc : checkPhase e vm with pe | vars
    · simp [to_polynomial, hc, Bind.bind, Except.bind]
    · simp only [to_polynomial, hc, Bind.bind, Except.bind]
      constructor
      · intro h; exact absurd h (buildPhase_no_err w e vars m)
      · intro h; exact absurd h (by simp)
  · intro vars h
    simp [to_polynomial, h, Bind.bind, Except.bind]

theorem to_polynomial_errors_from_validation_witness :
    (to_polynomial .w32 (.fn "f" [.var "x"]) none =
      .error (.err "function not supported in polynomial")) ∧
    (to_polynomial .w32 (.var "x") none = buildPhase .w32 (.var "x") ["x"]) :=
  ⟨(to_polynomial_errors_from_validation .w32 (.fn "f" [.var "x"]) none
      "function not supported in polynomial").1.mpr (by decide),
   (to_polynomial_errors_from_validation .w32 (.var "x") none "").2 ["x"] (by decide)⟩

/-- C6: with no variable map, a successful `to_polynomial` returns the
variables in first-encounter left-to-right order of the input; with a
caller-supplied map, any occurring variable absent from it makes the whole
conversion fail with the unknown-variable error (stated for inputs the
validator accepts structurally, so that the unknown variable is the failure
actually reported); and on the EXPANDED form of the spec's example,
x + x*a + x*5*y + x^2 + x^3, the variables come out as [x, a, y].  The
spec's example as written, x*(1+a)+x*5*y+x^2+x^3, is rejected
(see the counterexample theorem): `to_polynomial` does not expand products
of sums. -/
theorem to_polynomial_variable_order (w : EW) (e : SAtom) (V : List Ident)
    (v : Ident) (p : MPoly) :
    (to_polynomial w e none = .ok p → p.varMap = firstEncounter (rawVars e)) ∧
    (structOk e = true → v ∈ rawVars e → v ∉ V →
      to_polynomial w e (some V) =
        .error (.err "Expression contains variable that is not in variable map")) ∧
    to_polynomial .w32
      (.add [.var "x", .mul [.var "x", .var "a"],
             .mul [.var "x", .num (.nat 5 1), .var "y"],
             .pow (.var "x") (.num (.nat 2 1)),
             .pow (.var "x") (.num (.nat 3 1))]) none =
      .ok ⟨["x", "a", "y"],
           [(1, [1, 0, 0]), (5, [1, 0, 1]), (1, [1, 1, 0]),
            (1, [2, 0, 0]), (1, [3, 0, 0])]⟩ := by
  refine ⟨?_, ?_, ?_⟩
  · intro h
    rcases hc : checkPhase e none with e' | vars0
    · simp [to_polynomial, hc, Bind.bind, Except.bind] at h
    · simp only [to_polynomial, hc, Bind.bind, Except.bind] at h
      rw [buildPhase_varMap w e vars0 p h, checkPhase_none_ok e vars0 hc]
  · intro hs hmem hv
    have hall : ¬ (∀ x ∈ rawVars e, x ∈ V) := fun hA => hv (hA v hmem)
    simp [to_polynomial, checkPhase_some e V hs, hall, Bind.bind, Except.bind]
  · simp +decide [to_polynomial, checkPhase, buildPhase, check_term, check_factor,
      pushVar, parse_term, parse_factor, numToRatM, SNumber.toRat, fromU32, wrapAdd,
      MPoly.append_monomial, insertMonomial, cmpExp, MPoly.newP,
      Bind.bind, Except.bind, pure, Except.pure, List.foldlM,
      List.indexOf?, List.findIdx?, List.modify, List.modifyTailIdx, List.modifyHead,
      List.replicate]

theorem to_polynomial_variable_order_witness :
    MPoly.varMap ⟨["x"], [(1, [1])]⟩ = firstEncounter (rawVars (.var "x")) ∧
    to_polynomial .w32 (.var "y") (some ["x"]) =
      .error (.err "Expression contains variable that is not in variable map") :=
  ⟨(to_polynomial_variable_order .w32 (.var "x") [] "x" ⟨["x"], [(1, [1])]⟩).1
     (by decide),
   (to_polynomial_variable_order .w32 (.var "y") ["x"] "y" MPoly.oneP).2.1
     (by decide) (by simp [rawVars]) (by decide)⟩

/-- The spec's own first-encounter example, x*(1+a)+x*5*y+x^2+x^3, is not
converted at all: the sum inside the first product makes the validator fail,
so no variable ordering [x, a, y] is ever produced for it. -/
theorem to_polynomial_example_rejects_subexpression :
    to_polynomial .w32
      (.add [.mul [.var "x", .add [.num (.nat 1 1), .var "a"]],
             .mul [.var "x", .num (.nat 5 1), .var "y"],
             .pow (.var "x") (.num (.nat 2 1)),
             .pow (.var "x") (.num (.nat 3 1))]) none =
      .error (.err "Expression may not contain subexpressions") := by
  decide

/-- C3: the exponent dispatch of the recursive Pow case of
`to_rational_polynomial`, reached when the fast polynomial path fails with a
recoverable error.  A machine-integer exponent `Natural(nn, 1)` proceeds:
`nn = 1` recurses on the base, `nn = -1` recurses and inverts, and any other
`nn` either recurses on the expansion (when the expansion primitive reports a
change) or raises the converted base to `|nn|`, inverting first when
`nn < 0`.  A fraction `Natural(nn, nd)`, `nd ≠ 1`, errs; but a `Large`
exponent errs with "Exponent needs to be an integer" even when its value is
an integer `n/1` — only machine-width `Natural` integers proceed, refuting
the claim's "any Num(n/1) integer" (see the counterexample theorem); a
non-number exponent errs with "Power needs to be a number". -/
theorem to_rational_polynomial_pow_dispatch (fuel : Nat) (b : SAtom)
    (vm : Option (List Ident)) (m : String) :
    (∀ nn : Int, to_polynomial .w32 (.pow b (.num (.nat nn 1))) vm = .error (.err m) →
      to_rational_polynomial (fuel + 1) (.pow b (.num (.nat nn 1))) vm =
        if nn = 1 then to_rational_polynomial fuel b vm
        else if nn = -1 then
          (to_rational_polynomial fuel b vm).bind (fun r => .ok (RPoly.inv r))
        else if (expandAtom (.pow b (.num (.nat nn 1)))).1 then
          to_rational_polynomial fuel (expandAtom (.pow b (.num (.nat nn 1)))).2 vm
        else
          (to_rational_polynomial fuel b vm).bind (fun r =>
            if nn < 0 then .ok ((RPoly.inv r).pow nn.natAbs)
            else .ok (r.pow nn.natAbs))) ∧
    (∀ nn nd : Int, nd ≠ 1 →
      to_polynomial .w32 (.pow b (.num (.nat nn nd))) vm = .error (.err m) →
      to_rational_polynomial (fuel + 1) (.pow b (.num (.nat nn nd))) vm =
        .error (.err "Exponent cannot be a faction")) ∧
    (∀ q : ℚ, to_polynomial .w32 (.pow b (.num (.large q))) vm = .error (.err m) →
      to_rational_polynomial (fuel + 1) (.pow b (.num (.large q))) vm =
        .error (.err "Exponent needs to be an integer")) ∧
    (∀ ex : SAtom, (∀ n, ex ≠ .num n) →
      to_polynomial .w32 (.pow b ex) vm = .error (.err m) →
      to_rational_polynomial (fuel + 1) (.pow b ex) vm =
        .error (.err "Power needs to be a number")) := by
  refine ⟨?_, ?_, ?_, ?_⟩
  · intro nn hfast
    simp only [to_rational_polynomial]
    rw [hfast]
    by_cases h1 : nn = 1
    · subst h1; simp
    · by_cases h2 : nn = -1
      · subst h2; simp [Bind.bind]
      · by_cases hE : (expandAtom (.pow b (.num (.nat nn 1)))).1 = true
        · simp [h1, h2, hE, Bind.bind]
        · simp only [Bool.not_eq_true] at hE
          simp [h1, h2, hE, Bind.bind]
  · intro nn nd hnd hfast
    simp only [to_rational_polynomial]
    rw [hfast]
    simp [hnd]
  · intro q hfast
    simp only [to_rational_polynomial]
    rw [hfast]
  · intro ex hx hfast
    cases ex with
    | num n => exact absurd rfl (hx n)
    | var v => simp only [to_rational_polynomial]; rw [hfast]
    | fn g args => simp only [to_rational_polynomial]; rw [hfast]
    | pow b' e' => simp only [to_rational_polynomial]; rw [hfast]
    | mul fs => simp only [to_rational_polynomial]; rw [hfast]
    | add ts => simp only [to_rational_polynomial]; rw [hfast]

theorem to_rational_polynomial_pow_dispatch_witness :
    to_rational_polynomial 1 (.pow (.var "x") (.num (.nat 1 2))) none =
      .error (.err "Exponent cannot be a faction") :=
  (to_rational_polynomial_pow_dispatch 0 (.var "x") none
      "Exponent negative or a fraction").2.1 1 2 (by decide) (by decide)

/-- The rational 2^40 = 1099511627776/1 is an integer, yet as a `Large`
exponent it is rejected by the recursive Pow case instead of being converted:
the dispatch accepts machine-width `Natural` integers only. -/
theorem to_rational_polynomial_large_integer_exponent_rejected :
    to_rational_polynomial 1
        (.pow (.var "x") (.num (.large (1099511627776 : ℚ)))) none =
      .error (.err "Exponent needs to be an integer") ∧
    (1099511627776 : ℚ).den = 1 := by
  constructor
  · decide
  · decide

/-- C4: how `Token::to_rational_polynomial` actually dispatches when its
token fast path fails with a recoverable error: an `Inv` token recurses on
its argument TOKEN-side and inverts (it does not materialize an expression),
a `Pow` token delegates to the expression-tree entry through `to_atom` only
when the exponent token is not the literal `-1` (for `-1` it recurses
token-side and inverts), and a `Neg` token delegates through `to_atom`.
Because the `Inv` branch never materializes, its behaviour can differ from
the expression path (see the counterexample theorem), refuting the claimed
equivalence. -/
theorem token_to_rational_polynomial_delegation (fuel : Nat) (vm : List Ident)
    (m : String) :
    (∀ a : Token,
      Token.to_polynomial .w32 (.binaryOp .inv [a]) vm = .error (.err m) →
      Token.to_rational_polynomial (fuel + 1) (.binaryOp .inv [a]) vm =
        (Token.to_rational_polynomial fuel a vm).bind (fun r => .ok (RPoly.inv r))) ∧
    (∀ b ex : Token,
      Token.to_polynomial .w32 (.binaryOp .pow [b, ex]) vm = .error (.err m) →
      isNegOneTok ex = false →
      Token.to_rational_polynomial (fuel + 1) (.binaryOp .pow [b, ex]) vm =
        Symbolica.to_rational_polynomial fuel
          (Token.to_atom (.binaryOp .pow [b, ex])) (some vm)) ∧
    (∀ b ex : Token,
      Token.to_polynomial .w32 (.binaryOp .pow [b, ex]) vm = .error (.err m) →
      isNegOneTok ex = true →
      Token.to_rational_polynomial (fuel + 1) (.binaryOp .pow [b, ex]) vm =
        (Token.to_rational_polynomial fuel b vm).bind (fun r => .ok (RPoly.inv r))) ∧
    (∀ args : List Token,
      Token.to_polynomial .w32 (.binaryOp .neg args) vm = .error (.err m) →
      Token.to_rational_polynomial (fuel + 1) (.binaryOp .neg args) vm =
        Symbolica.to_rational_polynomial fuel
          (Token.to_atom (.binaryOp .neg args)) (some vm)) := by
  refine ⟨?_, ?_, ?_, ?_⟩
  · intro a hfast
    simp only [Token.to_rational_polynomial]
    rw [hfast]
    simp [Bind.bind]
  · intro b ex hfast hneg
    simp only [Token.to_rational_polynomial]
    rw [hfast]
    simp [hneg]
  · intro b ex hfast hneg
    simp only [Token.to_rational_polynomial]
    rw [hfast]
    simp [hneg, Bind.bind]
  · intro args hfast
    simp only [Token.to_rational_polynomial]
    rw [hfast]

theorem token_to_rational_polynomial_delegation_witness :
    (Token.to_rational_polynomial 1 (.binaryOp .inv [.id "x"]) ["x"] =
      (Token.to_rational_polynomial 0 (.id "x") ["x"]).bind
        (fun r => .ok (RPoly.inv r))) ∧
    (Token.to_rational_polynomial 1 (.binaryOp .pow [.id "x", .number (-1)]) ["x"] =
      (Token.to_rational_polynomial 0 (.id "x") ["x"]).bind
        (fun r => .ok (RPoly.inv r))) :=
  ⟨(token_to_rational_polynomial_delegation 0 ["x"] "Unsupported expression").1
     (.id "x") (by decide),
   (token_to_rational_polynomial_delegation 0 ["x"] "Invalid exponent").2.2.1
     (.id "x") (.number (-1)) (by decide) (by decide)⟩

/-- On the token `Inv(y)` with variable map `[x]`, the token routine panics
(the unknown identifier hits an `unwrap`), while materializing the same token
with `to_atom` and converting the expression returns the recoverable
unknown-variable error: the two entries are not equivalent. -/
theorem token_inv_diverges_from_atom_path :
    Token.to_rational_polynomial 2 (.binaryOp .inv [.id "y"]) ["x"] =
      .error (.panicked "identifier missing from map") ∧
    Symbolica.to_rational_polynomial 2
        (Token.to_atom (.binaryOp .inv [.id "y"])) (some ["x"]) =
      .error (.err "Expression contains variable that is not in variable map") ∧
    Token.to_rational_polynomial 2 (.binaryOp .inv [.id "y"]) ["x"] ≠
      Symbolica.to_rational_polynomial 2
        (Token.to_atom (.binaryOp .inv [.id "y"])) (some ["x"]) := by
  have hatom : Token.to_atom (.binaryOp .inv [.id "y"]) =
      .pow (.var "y") (.num (.nat (-1) 1)) := by
    simp +decide [Token.to_atom, tokenToRaw, tokenListToRaw, normalize, normalizeList,
      powNorm, isNumVal, nCanon, ratToNum, negOneN, SNumber.toRat, SNumber.isFin,
      i64max]
  refine ⟨by decide, ?_, ?_⟩
  · rw [hatom]; decide
  · rw [hatom]; decide

theorem cmpExp_eq_iff (a b : List Nat) : cmpExp a b = .eq ↔ a = b := by
  induction a generalizing b with
  | nil => cases b <;> simp [cmpExp]
  | cons x xs ih =>
      cases b with
      | nil => simp [cmpExp]
      | cons y ys =>
          rcases hc : compare x y with _ | _ | _
          · have hxy : x < y := Nat.compare_eq_lt.mp hc
            simp only [cmpExp, hc]
            simp [show ¬ x = y from by omega]
          · have hxy : x = y := Nat.compare_eq_eq.mp hc
            subst hxy
            simp [cmpExp, hc, ih]
          · have hxy : y < x := Nat.compare_eq_gt.mp hc
            simp only [cmpExp, hc]
            simp [show ¬ x = y from by omega]

theorem ratToNum_not_fin (c : ℚ) (a b : Nat) : ratToNum c ≠ .fin a b := by
  unfold ratToNum
  split <;> intro h <;> cases h

theorem numToRatM_ratToNum (c : ℚ) : numToRatM (ratToNum c) = .ok c := by
  have ht := toRat_ratToNum c
  rcases h : ratToNum c with ⟨p, q⟩ | r | ⟨a, b⟩ <;> rw [h] at ht
  · rw [show numToRatM (.nat p q) = .ok ((SNumber.nat p q).toRat) from rfl, ht]
  · rw [show numToRatM (.large r) = .ok ((SNumber.large r).toRat) from rfl, ht]
  · exact absurd h (ratToNum_not_fin c _ _)

theorem check_factor_ratToNum (vars : List Ident) (c : ℚ) :
    check_factor true vars (.num (ratToNum c)) = .ok vars := by
  rcases h : ratToNum c with ⟨p, q⟩ | r | ⟨a, b⟩
  · simp [check_factor]
  · simp [check_factor]
  · exact absurd h (ratToNum_not_fin c _ _)

theorem check_factor_monFactor (vars : List Ident) (vk : Ident × Nat) (f : SAtom)
    (hf : monFactor vk = some f) (hk : vk.2 ≤ 4294967295) :
    check_factor true vars f = .ok (addNew vars [vk.1]) := by
  unfold monFactor at hf
  by_cases h0 : vk.2 = 0
  · simp [h0] at hf
  · by_cases h1 : vk.2 = 1
    · simp [h0, h1] at hf
      rw [← hf]
      simp [check_factor, pushVar_true]
    · simp [h0, h1] at hf
      rw [← hf]
      simp only [check_factor, pushVar_true, Bind.bind, Except.bind]
      rw [if_pos ⟨trivial, by omega, by unfold u32max; omega⟩]

theorem rawVars_monFactor (vk : Ident × Nat) (f : SAtom) (hf : monFactor vk = some f) :
    rawVars f = [vk.1] := by
  unfold monFactor at hf
  by_cases h0 : vk.2 = 0
  · simp [h0] at hf
  · by_cases h1 : vk.2 = 1
    · simp [h0, h1] at hf
      rw [← hf]
      simp [rawVars]
    · simp [h0, h1] at hf
      rw [← hf]
      simp [rawVars]

theorem rawVarsList_filterMap_monFactor (l : List (Ident × Nat)) :
    rawVarsList (l.filterMap monFactor) =
      l.filterMap (fun vk => if vk.2 = 0 then none else some vk.1) := by
  induction l with
  | nil => simp [rawVarsList]
  | cons vk rest ih =>
      by_cases h0 : vk.2 = 0
      · rw [List.filterMap_cons_none (by simp [monFactor, h0]),
          List.filterMap_cons_none (by simp [h0]), ih]
      · rcases hf : monFactor vk with _ | f
        · unfold monFactor at hf
          by_cases h1 : vk.2 = 1 <;> simp [h0, h1] at hf
        · have h2 : (vk :: rest).filterMap
              (fun vk : Ident × Nat => if vk.2 = 0 then none else some vk.1) =
              vk.1 :: rest.filterMap
                (fun vk : Ident × Nat => if vk.2 = 0 then none else some vk.1) := by
            rw [List.filterMap_cons]
            simp [h0]
          rw [List.filterMap_cons_some hf, h2]
          simp only [rawVarsList]
          rw [rawVars_monFactor vk f hf, ih]
          rfl

theorem rawVarsList_append (a b : List SAtom) :
    rawVarsList (a ++ b) = rawVarsList a ++ rawVarsList b := by
  induction a with
  | nil => simp [rawVarsList]
  | cons x xs ih => simp [rawVarsList, ih]

theorem mem_rawVarsList (l : List SAtom) (a : SAtom) (x : Ident)
    (ha : a ∈ l) (hx : x ∈ rawVars a) : x ∈ rawVarsList l := by
  induction l with
  | nil => cases ha
  | cons b rest ih =>
      cases ha with
      | head =>
          simp only [rawVarsList]
          exact List.mem_append_left _ hx
      | tail _ hrest =>
          simp only [rawVarsList]
          exact List.mem_append_right _ (ih hrest)

theorem mem_addNew (acc l : List Ident) (x : Ident) :
    x ∈ addNew acc l ↔ x ∈ acc ∨ x ∈ l := by
  induction l generalizing acc with
  | nil => simp [addNew]
  | cons v rest ih =>
      show x ∈ addNew (if v ∈ acc then acc else acc ++ [v]) rest ↔ _
      by_cases hv : v ∈ acc
      · rw [if_pos hv, ih]
        constructor
        · rintro (h | h)
          · exact Or.inl h
          · exact Or.inr (List.mem_cons_of_mem _ h)
        · rintro (h | h)
          · exact Or.inl h
          · rcases List.mem_cons.mp h with rfl | h
            · exact Or.inl hv
            · exact Or.inr h
      · rw [if_neg hv, ih]
        simp only [List.mem_append, List.mem_singleton, List.mem_cons]
        tauto

theorem addNew_nodup (l acc : List Ident) (h : acc.Nodup) : (addNew acc l).Nodup := by
  induction l generalizing acc with
  | nil => exact h
  | cons v rest ih =>
      show (addNew (if v ∈ acc then acc else acc ++ [v]) rest).Nodup
      by_cases hv : v ∈ acc
      · rw [if_pos hv]; exact ih acc h
      · rw [if_neg hv]
        refine ih _ ?_
        rw [List.nodup_append]
        exact ⟨h, List.nodup_singleton v,
          fun a ha hb => hv ((List.mem_singleton.mp hb) ▸ ha)⟩

theorem check_factors_fold (l : List (Ident × Nat)) (vars : List Ident)
    (hk : ∀ x ∈ l, x.2 ≤ 4294967295) :
    (l.filterMap monFactor).foldlM (check_factor true) vars =
      .ok (addNew vars (l.filterMap (fun vk => if vk.2 = 0 then none else some vk.1))) := by
  induction l generalizing vars with
  | nil => simp [List.foldlM, pure, Except.pure, addNew]
  | cons vk rest ih =>
      have hk1 : vk.2 ≤ 4294967295 := hk vk (List.mem_cons_self _ _)
      have hk2 : ∀ x ∈ rest, x.2 ≤ 4294967295 :=
        fun x hx => hk x (List.mem_cons_of_mem _ hx)
      by_cases h0 : vk.2 = 0
      · rw [List.filterMap_cons_none (by simp [monFactor, h0]),
          List.filterMap_cons_none (by simp [h0])]
        exact ih vars hk2
      · rcases hf : monFactor vk with _ | f
        · unfold monFactor at hf
          by_cases h1 : vk.2 = 1 <;> simp [h0, h1] at hf
        · have h2 : (vk :: rest).filterMap
              (fun vk : Ident × Nat => if vk.2 = 0 then none else some vk.1) =
              vk.1 :: rest.filterMap
                (fun vk : Ident × Nat => if vk.2 = 0 then none else some vk.1) := by
            rw [List.filterMap_cons]
            simp [h0]
          rw [List.filterMap_cons_some hf, h2, List.foldlM_cons,
            check_factor_monFactor vars vk f hf hk1]
          simp only [Bind.bind, Except.bind]
          rw [ih _ hk2, ← addNew_append]
          rfl

theorem check_term_monomial (V' : List Ident) (c : ℚ) (es : List Nat)
    (vars : List Ident) (hk : ∀ x ∈ V'.zip es, x.2 ≤ 4294967295) :
    check_term true vars (.mul ((V'.zip es).filterMap monFactor ++ [.num (ratToNum c)])) =
      .ok (addNew vars ((V'.zip es).filterMap
        (fun vk => if vk.2 = 0 then none else some vk.1))) := by
  rw [show check_term true vars
      (.mul ((V'.zip es).filterMap monFactor ++ [SAtom.num (ratToNum c)])) =
      (((V'.zip es).filterMap monFactor ++ [SAtom.num (ratToNum c)]).foldlM
        (check_factor true) vars) from by simp [check_term]]
  rw [List.foldlM_append, check_factors_fold _ vars hk]
  simp only [Bind.bind, Except.bind]
  rw [List.foldlM_cons, check_factor_ratToNum]
  simp [List.foldlM, pure, Except.pure, Bind.bind, Except.bind]

theorem check_terms_fold (V' : List Ident) (ts : List (ℚ × List Nat))
    (vars : List Ident)
    (hk : ∀ t ∈ ts, ∀ x ∈ V'.zip t.2, x.2 ≤ 4294967295) :
    (ts.map (fun t =>
        SAtom.mul ((V'.zip t.2).filterMap monFactor ++ [.num (ratToNum t.1)]))).foldlM
      (check_term true) vars =
      .ok (addNew vars (rawVarsList (ts.map (fun t =>
        SAtom.mul ((V'.zip t.2).filterMap monFactor ++ [.num (ratToNum t.1)]))))) := by
  induction ts generalizing vars with
  | nil => simp [List.foldlM, pure, Except.pure, rawVarsList, addNew]
  | cons t rest ih =>
      rw [List.map_cons, List.foldlM_cons,
        check_term_monomial V' t.1 t.2 vars (hk t (List.mem_cons_self _ _))]
      simp only [Bind.bind, Except.bind]
      rw [ih _ (fun u hu => hk u (List.mem_cons_of_mem _ hu)), ← addNew_append]
      simp only [rawVarsList]
      rw [show rawVars (SAtom.mul ((V'.zip t.2).filterMap monFactor ++
          [SAtom.num (ratToNum t.1)])) =
          rawVarsList ((V'.zip t.2).filterMap monFactor ++ [SAtom.num (ratToNum t.1)])
        from by simp [rawVars]]
      rw [rawVarsList_append, rawVarsList_filterMap_monFactor]
      rcases h : ratToNum t.1 with ⟨p, q⟩ | r | ⟨a, b⟩
      · simp [rawVarsList, rawVars]
      · simp [rawVarsList, rawVars]
      · exact absurd h (ratToNum_not_fin t.1 _ _)

theorem checkPhase_from_polynomial (p : MPoly)
    (hk : ∀ t ∈ p.terms, ∀ x ∈ p.varMap.zip t.2, x.2 ≤ 4294967295) :
    ∃ VARS : List Ident,
      checkPhase (from_polynomial p) none = .ok VARS ∧ VARS.Nodup ∧
      ∀ t ∈ p.terms, ∀ x ∈ p.varMap.zip t.2, x.2 ≠ 0 → x.1 ∈ VARS := by
  refine ⟨addNew [] (rawVarsList (p.terms.map (fun t =>
    SAtom.mul ((p.varMap.zip t.2).filterMap monFactor ++
      [SAtom.num (ratToNum t.1)])))), ?_, ?_, ?_⟩
  · rw [show checkPhase (from_polynomial p) none =
        (p.terms.map (fun t =>
          SAtom.mul ((p.varMap.zip t.2).filterMap monFactor ++
            [.num (ratToNum t.1)]))).foldlM (check_term true) []
      from by simp [checkPhase, from_polynomial]]
    exact check_terms_fold p.varMap p.terms [] hk
  · exact addNew_nodup _ [] List.nodup_nil
  · intro t ht x hx hx2
    rw [mem_addNew]
    refine Or.inr ?_
    refine mem_rawVarsList _
      (SAtom.mul ((p.varMap.zip t.2).filterMap monFactor ++ [.num (ratToNum t.1)]))
      x.1 (List.mem_map_of_mem _ ht) ?_
    rw [show rawVars (SAtom.mul ((p.varMap.zip t.2).filterMap monFactor ++
        [SAtom.num (ratToNum t.1)])) =
        rawVarsList ((p.varMap.zip t.2).filterMap monFactor ++
          [SAtom.num (ratToNum t.1)])
      from by simp [rawVars]]
    rw [rawVarsList_append, rawVarsList_filterMap_monFactor]
    refine List.mem_append_left _ ?_
    exact List.mem_filterMap.mpr ⟨x, hx, by simp [hx2]⟩

theorem modify_zero_cons (f : Nat → Nat) (a : Nat) (l : List Nat) :
    List.modify f 0 (a :: l) = f a :: l := rfl

theorem modify_succ_cons (f : Nat → Nat) (a : Nat) (l : List Nat) (n : Nat) :
    List.modify f (n + 1) (a :: l) = a :: List.modify f n l := rfl

theorem map_modify (g : Ident → Nat) (f : Nat → Nat) (vars : List Ident) (v : Ident)
    (hmem : v ∈ vars) (hnd : vars.Nodup) :
    ∃ i, vars.indexOf? v = some i ∧
      (vars.map g).modify f i = vars.map (fun u => if u = v then f (g u) else g u) := by
  induction vars with
  | nil => cases hmem
  | cons a rest ih =>
      by_cases hav : a = v
      · subst hav
        refine ⟨0, ?_, ?_⟩
        · simp [List.indexOf?, List.findIdx?_cons]
        · rw [List.map_cons, List.map_cons, modify_zero_cons, if_pos rfl]
          have hna : a ∉ rest := (List.nodup_cons.mp hnd).1
          have : rest.map (fun u => if u = a then f (g u) else g u) = rest.map g :=
            List.map_congr_left (fun u hu => by
              rw [if_neg (by intro h; exact hna (h ▸ hu))])
          rw [this]
      · have hv' : v ∈ rest := by
          rcases List.mem_cons.mp hmem with h | h
          · exact absurd h.symm hav
          · exact h
        obtain ⟨i, hi, hmod⟩ := ih hv' (List.nodup_cons.mp hnd).2
        refine ⟨i + 1, ?_, ?_⟩
        · simp only [List.indexOf?] at hi ⊢
          rw [List.findIdx?_cons]
          simp [show (a == v) = false from by simp [hav], hi]
        · rw [List.map_cons, List.map_cons, modify_succ_cons, hmod, if_neg hav]

theorem parse_factor_monFactor (vars : List Ident) (g : Ident → Nat) (c : ℚ)
    (vk : Ident × Nat) (f : SAtom) (hf : monFactor vk = some f)
    (hk : vk.2 ≤ 4294967295) (hmem : vk.1 ∈ vars) (hnd : vars.Nodup) :
    parse_factor .w32 vars (c, vars.map g) f = .ok (c, vars.map (expApply g vk)) := by
  unfold monFactor at hf
  by_cases h0 : vk.2 = 0
  · simp [h0] at hf
  · by_cases h1 : vk.2 = 1
    · simp [h0, h1] at hf
      obtain ⟨i, hi, hmod⟩ :=
        map_modify g (fun old => (old + vk.2) % 4294967296) vars vk.1 hmem hnd
      rw [← hf]
      simp only [parse_factor, hi]
      rw [show (fun old => wrapAdd .w32 old 1) = fun old => (old + vk.2) % 4294967296
        from by funext old; simp [wrapAdd, h1]]
      rw [hmod]
      simp [expApply, h0]
    · simp [h0, h1] at hf
      obtain ⟨i, hi, hmod⟩ :=
        map_modify g (fun old => (old + vk.2) % 4294967296) vars vk.1 hmem hnd
      rw [← hf]
      simp only [parse_factor, hi, Bind.bind, Except.bind]
      have hcast : ((vk.2 : Int) % 4294967296).toNat = vk.2 := by omega
      rw [hcast]
      rw [show fromU32 .w32 vk.2 = .ok vk.2 from rfl]
      simp only
      rw [show (fun old => wrapAdd .w32 old vk.2) =
          fun old => (old + vk.2) % 4294967296
        from by funext old; simp [wrapAdd]]
      rw [hmod]
      simp [expApply, h0]

theorem parse_factors_fold (l : List (Ident × Nat)) (vars : List Ident)
    (g : Ident → Nat) (c : ℚ)
    (hmem : ∀ x ∈ l, x.2 ≠ 0 → x.1 ∈ vars) (hnd : vars.Nodup)
    (hk : ∀ x ∈ l, x.2 ≤ 4294967295) :
    (l.filterMap monFactor).foldlM (parse_factor .w32 vars) (c, vars.map g) =
      .ok (c, vars.map (expFold g l)) := by
  induction l generalizing g with
  | nil => simp [List.foldlM, pure, Except.pure, expFold]
  | cons vk rest ih =>
      have hm1 : ∀ x ∈ rest, x.2 ≠ 0 → x.1 ∈ vars :=
        fun x hx => hmem x (List.mem_cons_of_mem _ hx)
      have hk1 : ∀ x ∈ rest, x.2 ≤ 4294967295 :=
        fun x hx => hk x (List.mem_cons_of_mem _ hx)
      rw [show expFold g (vk :: rest) = expFold (expApply g vk) rest from rfl]
      by_cases h0 : vk.2 = 0
      · rw [List.filterMap_cons_none (by simp [monFactor, h0])]
        rw [show expApply g vk = g from by simp [expApply, h0]]
        exact ih g hm1 hk1
      · rcases hf : monFactor vk with _ | f
        · unfold monFactor at hf
          by_cases h1 : vk.2 = 1 <;> simp [h0, h1] at hf
        · rw [List.filterMap_cons_some hf, List.foldlM_cons,
            parse_factor_monFactor vars g c vk f hf (hk vk (List.mem_cons_self _ _))
              (hmem vk (List.mem_cons_self _ _) h0) hnd]
          simp only [Bind.bind, Except.bind]
          exact ih (expApply g vk) hm1 hk1

theorem expFold_not_mem (g : Ident → Nat) (l : List (Ident × Nat)) (u : Ident)
    (h : u ∉ l.map Prod.fst) : expFold g l u = g u := by
  induction l generalizing g with
  | nil => rfl
  | cons vk rest ih =>
      have h1 : u ≠ vk.1 := fun he => h (by simp [he])
      have h2 : u ∉ rest.map Prod.fst := fun he => h (by simp [he])
      rw [show expFold g (vk :: rest) = expFold (expApply g vk) rest from rfl,
        ih _ h2]
      unfold expApply
      split
      · rfl
      · simp [h1]

theorem expFold_eval (l : List (Ident × Nat)) (g : Ident → Nat) (u : Ident)
    (hnd : (l.map Prod.fst).Nodup) (hk : ∀ x ∈ l, x.2 ≤ 4294967295)
    (hgu : g u = 0) :
    expFold g l u = ((l.find? (fun x => x.1 == u)).map (fun x => x.2)).getD 0 := by
  induction l generalizing g with
  | nil => simpa [expFold, List.find?] using hgu
  | cons vk rest ih =>
      rw [show expFold g (vk :: rest) = expFold (expApply g vk) rest from rfl]
      by_cases hu : u = vk.1
      · have hnr : u ∉ rest.map Prod.fst := by
          rw [hu]
          exact (List.nodup_cons.mp (by simpa using hnd)).1
        rw [expFold_not_mem _ _ _ hnr]
        rw [List.find?_cons_of_pos _ (by simp [hu])]
        unfold expApply
        split
        · rename_i h0
          simp [hgu, h0]
        · rename_i h0
          have hgv : g vk.1 = 0 := hu ▸ hgu
          have hlt : vk.2 < 4294967296 := by
            have := hk vk (List.mem_cons_self _ _)
            omega
          simp [hu, hgv, Nat.mod_eq_of_lt hlt]
      · rw [List.find?_cons_of_neg _ (by simp; exact fun h => hu h.symm)]
        refine ih (expApply g vk) ?_ ?_ ?_
        · exact (List.nodup_cons.mp (by simpa using hnd)).2
        · exact fun x hx => hk x (List.mem_cons_of_mem _ hx)
        · unfold expApply
          split
          · exact hgu
          · simp [hu, hgu]

theorem zip_self_map (l : List Ident) (f : Ident → Nat) :
    l.zip (l.map f) = l.map (fun a => (a, f a)) := by
  induction l with
  | nil => rfl
  | cons a rest ih => simp [ih]

theorem map_lookupExp_self (V : List Ident) (es : List Nat)
    (hnd : V.Nodup) (hlen : es.length = V.length) :
    V.map (fun u => lookupExp V es u) = es := by
  induction V generalizing es with
  | nil =>
      cases es with
      | nil => rfl
      | cons k er => simp at hlen
  | cons v Vr ih =>
      cases es with
      | nil => simp at hlen
      | cons k er =>
          have hna : v ∉ Vr := (List.nodup_cons.mp hnd).1
          rw [List.map_cons]
          have hhead : lookupExp (v :: Vr) (k :: er) v = k := by
            simp [lookupExp, List.zip_cons_cons, List.find?_cons_of_pos]
          have htail : Vr.map (fun u => lookupExp (v :: Vr) (k :: er) u) =
              Vr.map (fun u => lookupExp Vr er u) :=
            List.map_congr_left (fun u hu => by
              have hvu : ((v : Ident) == u) = false := by
                simp
                exact fun h => hna (h ▸ hu)
              simp [lookupExp, List.zip_cons_cons, List.find?_cons, hvu])
          rw [hhead, htail,
            ih er (List.nodup_cons.mp hnd).2 (by simpa using hlen)]

theorem lookupExp_ne_zero_mem (V : List Ident) (es : List Nat) (u : Ident)
    (h : lookupExp V es u ≠ 0) : (u, lookupExp V es u) ∈ V.zip es := by
  unfold lookupExp at h ⊢
  rcases hf : (V.zip es).find? (fun p => p.1 == u) with _ | x
  · rw [hf] at h
    simp at h
  · rw [hf] at h ⊢
    have hx := List.find?_some hf
    have hmem := List.mem_of_find?_eq_some hf
    simp only [beq_iff_eq] at hx
    simp only [Option.map_some', Option.getD_some]
    rw [show (u, x.2) = x from by rw [← hx]]
    exact hmem

theorem parse_term_monomial (V VARS : List Ident) (c : ℚ) (es : List Nat)
    (poly : MPoly) (hndV : V.Nodup) (hndW : VARS.Nodup)
    (hlen : es.length = V.length)
    (hact : ∀ x ∈ V.zip es, x.2 ≠ 0 → x.1 ∈ VARS)
    (hk : ∀ x ∈ V.zip es, x.2 ≤ 4294967295) :
    parse_term .w32 VARS poly
      (.mul ((V.zip es).filterMap monFactor ++ [SAtom.num (ratToNum c)])) =
      .ok (poly.append_monomial c (VARS.map (fun u => lookupExp V es u))) := by
  have hkeys : ((V.zip es).map Prod.fst).Nodup := by
    rw [List.map_fst_zip _ _ (by omega)]
    exact hndV
  have hmapeq : VARS.map (expFold (fun _ => 0) (V.zip es)) =
      VARS.map (fun u => lookupExp V es u) :=
    List.map_congr_left (fun u _ => expFold_eval (V.zip es) _ u hkeys hk rfl)
  simp only [parse_term]
  rw [show List.replicate VARS.length 0 = VARS.map (fun _ => 0) from
    (List.map_const' VARS 0).symm]
  rw [List.foldlM_append]
  rw [parse_factors_fold (V.zip es) VARS (fun _ => 0) 1 hact hndW hk]
  simp only [Bind.bind, Except.bind]
  rw [List.foldlM_cons]
  rw [show parse_factor .w32 VARS (1, VARS.map (expFold (fun _ => 0) (V.zip es)))
      (SAtom.num (ratToNum c)) =
      .ok (1 * c, VARS.map (expFold (fun _ => 0) (V.zip es))) from by
    simp [parse_factor, numToRatM_ratToNum, Bind.bind, Except.bind]]
  simp only [Bind.bind, Except.bind, List.foldlM, pure, Except.pure]
  rw [one_mul, hmapeq]

theorem parse_terms_fold (V VARS : List Ident) (ts : List (ℚ × List Nat))
    (acc : MPoly) (hndV : V.Nodup) (hndW : VARS.Nodup)
    (hlen : ∀ t ∈ ts, t.2.length = V.length)
    (hact : ∀ t ∈ ts, ∀ x ∈ V.zip t.2, x.2 ≠ 0 → x.1 ∈ VARS)
    (hk : ∀ t ∈ ts, ∀ x ∈ V.zip t.2, x.2 ≤ 4294967295) :
    (ts.map (fun t =>
        SAtom.mul ((V.zip t.2).filterMap monFactor ++ [SAtom.num (ratToNum t.1)]))).foldlM
      (parse_term .w32 VARS) acc =
      .ok (ts.foldl (fun a t =>
        a.append_monomial t.1 (VARS.map (fun u => lookupExp V t.2 u))) acc) := by
  induction ts generalizing acc with
  | nil => simp [List.foldlM, pure, Except.pure]
  | cons t rest ih =>
      rw [List.map_cons, List.foldlM_cons,
        parse_term_monomial V VARS t.1 t.2 acc hndV hndW
          (hlen t (List.mem_cons_self _ _)) (hact t (List.mem_cons_self _ _))
          (hk t (List.mem_cons_self _ _))]
      simp only [Bind.bind, Except.bind]
      rw [ih _ (fun u hu => hlen u (List.mem_cons_of_mem _ hu))
        (fun u hu => hact u (List.mem_cons_of_mem _ hu))
        (fun u hu => hk u (List.mem_cons_of_mem _ hu))]
      rfl

theorem insertMonomial_fresh (c : ℚ) (es : List Nat) (l : List (ℚ × List Nat))
    (hfresh : es ∉ l.map Prod.snd) :
    (insertMonomial c es l).Perm ((c, es) :: l) := by
  induction l with
  | nil => exact List.Perm.refl _
  | cons p rest ih =>
      obtain ⟨c', es'⟩ := p
      rcases hc : cmpExp es es' with _ | _ | _
      · simp only [insertMonomial, hc]
        exact List.Perm.refl _
      · exact absurd (cmpExp_eq_iff es es' |>.mp hc)
          (by intro h; exact hfresh (by simp [h]))
      · simp only [insertMonomial, hc]
        have hf' : es ∉ rest.map Prod.snd := fun h => hfresh (by simp [h])
        exact ((ih hf').cons (c', es')).trans (List.Perm.swap (c, es) (c', es') rest)

theorem foldl_append_monomial_varMap (ms : List (ℚ × List Nat)) (acc : MPoly) :
    (ms.foldl (fun a m => a.append_monomial m.1 m.2) acc).varMap = acc.varMap := by
  induction ms generalizing acc with
  | nil => rfl
  | cons m rest ih => rw [List.foldl_cons, ih, append_monomial_varMap]

theorem foldl_append_monomial_terms (ms : List (ℚ × List Nat)) (acc : MPoly)
    (hc : ∀ m ∈ ms, m.1 ≠ 0)
    (hnd : (acc.terms.map Prod.snd ++ ms.map Prod.snd).Nodup) :
    (ms.foldl (fun a m => a.append_monomial m.1 m.2) acc).terms.Perm
      (ms ++ acc.terms) := by
  induction ms generalizing acc with
  | nil => exact List.Perm.refl _
  | cons m rest ih =>
      rw [List.foldl_cons]
      rw [List.nodup_append] at hnd
      have hfresh : m.2 ∉ acc.terms.map Prod.snd :=
        fun h => hnd.2.2 h (by simp)
      have hterms : (acc.append_monomial m.1 m.2).terms.Perm ((m.1, m.2) :: acc.terms) := by
        unfold MPoly.append_monomial
        rw [if_neg (hc m (List.mem_cons_self _ _))]
        exact insertMonomial_fresh m.1 m.2 acc.terms hfresh
      have hp : ((acc.append_monomial m.1 m.2).terms.map Prod.snd ++
          rest.map Prod.snd).Perm
          (acc.terms.map Prod.snd ++ (m.2 :: rest.map Prod.snd)) :=
        ((hterms.map Prod.snd).append_right (rest.map Prod.snd)).trans
          List.perm_middle.symm
      have hnd' : ((acc.append_monomial m.1 m.2).terms.map Prod.snd ++
          rest.map Prod.snd).Nodup := by
        rw [hp.nodup_iff]
        rw [List.nodup_append]
        exact ⟨hnd.1, by simpa using hnd.2.1, fun a ha hb => hnd.2.2 ha (by simpa using hb)⟩
      exact ((ih _ (fun x hx => hc x (List.mem_cons_of_mem _ hx)) hnd').trans
        ((List.Perm.append_left rest hterms).trans List.perm_middle))

theorem lookup_map_inj (V VARS : List Ident) (es₁ es₂ : List Nat)
    (hndV : V.Nodup) (hlen₁ : es₁.length = V.length) (hlen₂ : es₂.length = V.length)
    (hact₁ : ∀ x ∈ V.zip es₁, x.2 ≠ 0 → x.1 ∈ VARS)
    (hact₂ : ∀ x ∈ V.zip es₂, x.2 ≠ 0 → x.1 ∈ VARS)
    (heq : VARS.map (fun u => lookupExp V es₁ u) =
      VARS.map (fun u => lookupExp V es₂ u)) :
    es₁ = es₂ := by
  have hW : ∀ u ∈ VARS, lookupExp V es₁ u = lookupExp V es₂ u :=
    List.map_eq_map_iff.mp heq
  have hAll : ∀ u, lookupExp V es₁ u = lookupExp V es₂ u := by
    intro u
    by_cases h1 : lookupExp V es₁ u = 0
    · by_cases h2 : lookupExp V es₂ u = 0
      · rw [h1, h2]
      · exact hW u (hact₂ _ (lookupExp_ne_zero_mem V es₂ u h2) h2)
    · exact hW u (hact₁ _ (lookupExp_ne_zero_mem V es₁ u h1) h1)
  calc es₁ = V.map (fun u => lookupExp V es₁ u) :=
        (map_lookupExp_self V es₁ hndV hlen₁).symm
    _ = V.map (fun u => lookupExp V es₂ u) := List.map_congr_left (fun u _ => hAll u)
    _ = es₂ := map_lookupExp_self V es₂ hndV hlen₂

theorem canonMon_eq (V VARS : List Ident) (es : List Nat)
    (hndV : V.Nodup) (hndW : VARS.Nodup) (hlen : es.length = V.length)
    (hact : ∀ x ∈ V.zip es, x.2 ≠ 0 → x.1 ∈ VARS) :
    canonMon VARS (VARS.map (fun u => lookupExp V es u)) = canonMon V es := by
  have hzip : V.zip es = V.map (fun u => (u, lookupExp V es u)) := by
    conv_lhs => rw [← map_lookupExp_self V es hndV hlen]
    exact zip_self_map V _
  unfold canonMon
  rw [zip_self_map, hzip]
  have hnd1 : ((VARS.map (fun u => (u, lookupExp V es u))).filter
      (fun vk => vk.2 != 0)).Nodup :=
    List.Nodup.filter _
      (List.Nodup.map_on (fun x _ y _ h => congrArg Prod.fst h) hndW)
  have hnd2 : ((V.map (fun u => (u, lookupExp V es u))).filter
      (fun vk => vk.2 != 0)).Nodup :=
    List.Nodup.filter _
      (List.Nodup.map_on (fun x _ y _ h => congrArg Prod.fst h) hndV)
  rw [Multiset.Nodup.ext (by simpa using hnd1) (by simpa using hnd2)]
  intro a
  simp only [Multiset.mem_coe, List.mem_filter, List.mem_map]
  constructor
  · rintro ⟨⟨u, hu, rfl⟩, hpred⟩
    have hne : lookupExp V es u ≠ 0 := by simpa using hpred
    have hmem := lookupExp_ne_zero_mem V es u hne
    rw [hzip] at hmem
    exact ⟨List.mem_map.mp hmem |>.elim (fun u' hu' => ⟨u', hu'.1, hu'.2⟩), hpred⟩
  · rintro ⟨⟨u, hu, rfl⟩, hpred⟩
    have hne : lookupExp V es u ≠ 0 := by simpa using hpred
    have hmemW : u ∈ VARS := hact (u, lookupExp V es u)
      (lookupExp_ne_zero_mem V es u hne) hne
    exact ⟨⟨u, hmemW, rfl⟩, hpred⟩

/-- C7: converting a well-formed polynomial over ℚ to an expression with
`from_polynomial` and converting that expression back with `to_polynomial`
(no caller variable map) succeeds and returns a polynomial with the same
monomials: equal coefficient-monomial multisets after forgetting the monomial
ordering and the variable-map order. -/
theorem from_to_polynomial_roundtrip (p : MPoly) (h : p.wf) :
    ∃ q : MPoly, to_polynomial .w32 (from_polynomial p) none = .ok q ∧
      canonPoly q = canonPoly p := by
  obtain ⟨hndV, hterm, hsnd⟩ := h
  have hk : ∀ t ∈ p.terms, ∀ x ∈ p.varMap.zip t.2, x.2 ≤ 4294967295 := by
    intro t ht x hx
    exact (hterm t ht).2.2 x.2 (List.of_mem_zip hx).2
  obtain ⟨VARS, hcheck, hndW, hact⟩ := checkPhase_from_polynomial p hk
  have hlen : ∀ t ∈ p.terms, t.2.length = p.varMap.length :=
    fun t ht => (hterm t ht).2.1
  have hbuild : buildPhase .w32 (from_polynomial p) VARS = .ok
      (p.terms.foldl (fun a t =>
        a.append_monomial t.1 (VARS.map (fun u => lookupExp p.varMap t.2 u)))
        (MPoly.newP VARS)) := by
    rw [show buildPhase .w32 (from_polynomial p) VARS =
        (p.terms.map (fun t => SAtom.mul ((p.varMap.zip t.2).filterMap monFactor ++
          [SAtom.num (ratToNum t.1)]))).foldlM (parse_term .w32 VARS) (MPoly.newP VARS)
      from by simp [buildPhase, from_polynomial]]
    exact parse_terms_fold p.varMap VARS p.terms (MPoly.newP VARS) hndV hndW hlen hact hk
  refine ⟨p.terms.foldl (fun a t =>
      a.append_monomial t.1 (VARS.map (fun u => lookupExp p.varMap t.2 u)))
      (MPoly.newP VARS), ?_, ?_⟩
  · simp only [to_polynomial, hcheck, Bind.bind, Except.bind]
    exact hbuild
  · have hms : p.terms.foldl (fun a t =>
        a.append_monomial t.1 (VARS.map (fun u => lookupExp p.varMap t.2 u)))
        (MPoly.newP VARS) =
        (p.terms.map (fun t =>
          (t.1, VARS.map (fun u => lookupExp p.varMap t.2 u)))).foldl
          (fun a m => a.append_monomial m.1 m.2) (MPoly.newP VARS) := by
      rw [List.foldl_map]
    have hmssnd : ((p.terms.map (fun t =>
        (t.1, VARS.map (fun u => lookupExp p.varMap t.2 u)))).map Prod.snd).Nodup := by
      rw [List.map_map,
        show (Prod.snd ∘ fun t : ℚ × List Nat =>
            (t.1, VARS.map (fun u => lookupExp p.varMap t.2 u))) =
          ((fun es => VARS.map (fun u => lookupExp p.varMap es u)) ∘ Prod.snd)
        from rfl,
        ← List.map_map]
      refine List.Nodup.map_on ?_ hsnd
      intro x hx y hy hxy
      obtain ⟨t, ht, htx⟩ := List.mem_map.mp hx
      obtain ⟨s, hs, hsy⟩ := List.mem_map.mp hy
      subst htx
      subst hsy
      exact lookup_map_inj p.varMap VARS t.2 s.2 hndV (hlen t ht) (hlen s hs)
        (hact t ht) (hact s hs) hxy
    have hQp : ((p.terms.map (fun t =>
        (t.1, VARS.map (fun u => lookupExp p.varMap t.2 u)))).foldl
        (fun a m => a.append_monomial m.1 m.2) (MPoly.newP VARS)).terms.Perm
        (p.terms.map (fun t =>
          (t.1, VARS.map (fun u => lookupExp p.varMap t.2 u)))) := by
      have := foldl_append_monomial_terms
        (p.terms.map (fun t => (t.1, VARS.map (fun u => lookupExp p.varMap t.2 u))))
        (MPoly.newP VARS)
        (by
          intro m hm
          obtain ⟨t, ht, htm⟩ := List.mem_map.mp hm
          rw [← htm]
          exact (hterm t ht).1)
        (by simpa [MPoly.newP] using hmssnd)
      simpa [MPoly.newP] using this
    have hQvm : (p.terms.foldl (fun a t =>
        a.append_monomial t.1 (VARS.map (fun u => lookupExp p.varMap t.2 u)))
        (MPoly.newP VARS)).varMap = VARS := by
      rw [hms, foldl_append_monomial_varMap]
      rfl
    unfold canonPoly
    rw [hQvm, Multiset.coe_eq_coe, hms]
    refine (hQp.map _).trans ?_
    rw [List.map_map]
    have hcong : p.terms.map ((fun t : ℚ × List Nat => (t.1, canonMon VARS t.2)) ∘
        fun t => (t.1, VARS.map (fun u => lookupExp p.varMap t.2 u))) =
        p.terms.map (fun t => (t.1, canonMon p.varMap t.2)) := by
      refine List.map_congr_left (fun t ht => ?_)
      simp only [Function.comp]
      rw [canonMon_eq p.varMap VARS t.2 hndV hndW (hlen t ht) (hact t ht)]
    rw [hcong]

theorem from_to_polynomial_roundtrip_witness :
    MPoly.wf ⟨["x"], [((2 : ℚ), [1])]⟩ ∧
    ∃ q : MPoly,
      to_polynomial .w32 (from_polynomial ⟨["x"], [((2 : ℚ), [1])]⟩) none = .ok q ∧
      canonPoly q = canonPoly ⟨["x"], [((2 : ℚ), [1])]⟩ :=
  ⟨by decide, from_to_polynomial_roundtrip ⟨["x"], [((2 : ℚ), [1])]⟩ (by decide)⟩

theorem derivative_add_distributes_witness :
    derivative (.var "x") "x" = .ok (true, oneA) ∧
    derivative (.num (.nat 1 1)) "x" = .ok (false, zeroA) ∧
    derivative (.add [.var "x", .num (.nat 1 1)]) "x" =
      .ok (true || false, normalize (.add [oneA, zeroA])) :=
  ⟨by rw [derivative_var]; simp,
   derivative_num _ _,
   derivative_add_distributes (.var "x") (.num (.nat 1 1)) "x" true false oneA zeroA
     (by rw [derivative_var]; simp) (derivative_num _ _)⟩

end Symbolica
